import Mathlib

/-!
mob: configuration store, ini ingestion, toolchain location and the cmake tool
(`src/conf.cpp`, `src/tools/cmake.cpp`)

A shallow embedding of the configuration store of `conf.cpp`, of the ini
reader that populates it, of the option parser, the path probes and the
toolchain and path resolution steps of `init_options`, and of the cmake tool of
`tools/cmake.cpp`, followed by the properties proved about them.

Modelling conventions

* `std::string` is a list of characters (`std_string`).
* `conf::map_` is a static three-level map (task -> section -> key -> value).
  Its type is declared in `conf.h`; the functions embedded here use only
  `find`, `operator[]` followed by an assignment, and a write through the
  iterator `find` returned, so the maps are association lists read by
  `map_find` and written by `map_put`.  The order of the entries is not
  observable through these operations.
* `gcx().bail_out(...)` does not return.  A call that can bail out yields
  either the bail-out it ended with or its result; a call that also writes
  `conf::map_` yields an `effect`: the bail-out, if any, and the store at the
  moment the call ended.
* A `fs::path` is the string it is built from; the operations of
  `std::filesystem` and the state of the file system are the fields of a
  `filesystem` record, a parameter of every function that uses them.
* Positions in strings are `size_t`: where the source subtracts or adds them,
  the arithmetic is taken modulo `2 ^ 64`.
-/

namespace mob

/-- A `std::string`. -/
abbrev std_string := List Char

/-- The map `key -> value` of one section. -/
abbrev key_value_map := List (std_string × std_string)

/-- The map `section -> key -> value` of one task. -/
abbrev section_map := List (std_string × key_value_map)

/-- The type of `conf::map_`: `task -> section -> key -> value`; the task `""`
is the global layer. -/
abbrev task_map := List (std_string × section_map)

instance : DecidableEq std_string := List.hasDecEq

instance : DecidableEq key_value_map := List.hasDecEq

instance : DecidableEq section_map := List.hasDecEq

instance : DecidableEq task_map := List.hasDecEq

/-- The ways a call ends without returning. -/
inductive bailed where
  /-- `MOB_ASSERT(global != map_.end())` does not hold.  The macro is defined
  outside `conf.cpp`; a failed assertion is taken to end the call. -/
  | assertion : bailed
  /-- `bail_out(context::conf, "conf section '{}' doesn't exist", section)`. -/
  | no_section (sec : std_string) : bailed
  /-- `bail_out(context::conf, "key '{}' not found in section '{}'", key, section)`. -/
  | no_key (key sec : std_string) : bailed
  /-- `bail_out(context::conf, "{}:{}: {}", file, number, what)`, the message
  of `ini_error`; `number` is the line number as it is printed. -/
  | format (file : std_string) (number : Nat) (what : std_string) : bailed
  /-- Any other `bail_out(...)`, with the text of its message. -/
  | fatal (what : std_string) : bailed
  deriving DecidableEq, Repr

/-- What a call that writes `conf::map_` leaves behind. -/
structure effect where
  /-- The bail-out that ended the call, `none` when it returned. -/
  bail : Option bailed
  /-- The content of `conf::map_` when the call ended. -/
  map_ : task_map

instance : DecidableEq effect := fun a b =>
  decidable_of_iff (a.bail = b.bail ∧ a.map_ = b.map_) (by
    cases a
    cases b
    simp)

instance : DecidableEq (Except bailed std_string) := fun a b =>
  match a, b with
  | .ok x, .ok y => decidable_of_iff (x = y) (by simp)
  | .error x, .error y => decidable_of_iff (x = y) (by simp)
  | .ok _, .error _ => isFalse (by simp)
  | .error _, .ok _ => isFalse (by simp)

/-- The call `m.find(k)`: the mapped value, `none` for `m.end()`. -/
def map_find {α : Type} : List (std_string × α) → std_string → Option α
  | [], _ => none
  | (k', v) :: rest, k => if k' = k then some v else map_find rest k

/-- The statement `m[k] = v`: overwrite the entry of `k`, create it when there
is none. -/
def map_put {α : Type} : List (std_string × α) → std_string → α → List (std_string × α)
  | [], k, v => [(k, v)]
  | (k', v') :: rest, k, v =>
    if k' = k then (k, v) :: rest else (k', v') :: map_put rest k v

/-- The statement `map_[task][section][key] = value`; each `operator[]` creates
an empty entry when the key is new. -/
def assign (map_ : task_map) (task sec key value : std_string) : task_map :=
  let sections := (map_find map_ task).getD []
  let keys := (map_find sections sec).getD []
  map_put map_ task (map_put sections sec (map_put keys key value))

/-- `conf::get_global`. -/
def get_global (map_ : task_map) (sec key : std_string) : Except bailed std_string :=
  match map_find map_ [] with
  | none => .error .assertion
  | some global =>
    match map_find global sec with
    | none => .error (.no_section sec)
    | some sitor =>
      match map_find sitor key with
      | none => .error (.no_key key sec)
      | some kitor => .ok kitor

/-- `conf::set_global`; the final `kitor->second = value` writes the entry that
the two `find` calls reached. -/
def set_global (map_ : task_map) (sec key value : std_string) : effect :=
  match map_find map_ [] with
  | none => ⟨some .assertion, map_⟩
  | some global =>
    match map_find global sec with
    | none => ⟨some (.no_section sec), map_⟩
    | some sitor =>
      match map_find sitor key with
      | none => ⟨some (.no_key key sec), map_⟩
      | some _ => ⟨none, map_put map_ [] (map_put global sec (map_put sitor key value))⟩

/-- `conf::add_global`. -/
def add_global (map_ : task_map) (sec key value : std_string) : effect :=
  ⟨none, assign map_ [] sec key value⟩

/-- The loop at the head of `conf::get_for_task`: the layer of the first name
that `map_.find` finds, `none` when the loop ends with `task == map_.end()`. -/
def find_task (map_ : task_map) : List std_string → Option section_map
  | [] => none
  | tn :: rest =>
    match map_find map_ tn with
    | some task => some task
    | none => find_task map_ rest

/-- `conf::get_for_task`. -/
def get_for_task (map_ : task_map) (task_names : List std_string)
    (sec key : std_string) : Except bailed std_string :=
  match find_task map_ task_names with
  | none => get_global map_ sec key
  | some task =>
    match map_find task sec with
    | none => get_global map_ sec key
    | some sitor =>
      match map_find sitor key with
      | none => get_global map_ sec key
      | some kitor => .ok kitor

/-- `conf::set_for_task`. -/
def set_for_task (map_ : task_map) (task_name sec key value : std_string) : effect :=
  match get_global map_ sec key with
  | .error e => ⟨some e, map_⟩
  | .ok _ => ⟨none, assign map_ task_name sec key value⟩

/-! ### Ini ingestion -/

/-- The call `s.find(c)` for a one-character pattern; `none` is `npos`. -/
def find : std_string → Char → Option Nat
  | [], _ => none
  | x :: rest, c => if x = c then some 0 else (find rest c).map (· + 1)

/-- The call `s.substr(pos, len)`, for `pos <= s.size()`. -/
def substr (s : std_string) (pos len : Nat) : std_string :=
  (s.drop pos).take len

/-- The call `s.starts_with(p)`. -/
def starts_with (s p : std_string) : Bool :=
  p.isPrefixOf s

/-- The call `s.ends_with(p)`. -/
def ends_with (s p : std_string) : Bool :=
  p.isSuffixOf s

/-- Modelled from the spec: `trim_copy` of `utility.h`, which is not among the
sources; the spec has lines and both sides of `=` "trimmed", taken here as
removing spaces, tabs, carriage returns and line feeds at both ends.  The
parsing functions below take the trimming function as their parameter `trim`
(the in-place `trim(line)` being the same function), and what is proved about
them holds for every such function; `trim_copy` is the one examples are
evaluated with. -/
def trim_copy (s : std_string) : std_string :=
  let ws : Char → Bool := fun c => c = ' ' || c = '\t' || c = '\r' || c = '\n'
  ((s.dropWhile ws).reverse.dropWhile ws).reverse

/-- An ini file as `read_ini` and `ini_error` see it: `ini.filename()` and the
lines `std::getline` delivers in turn. -/
structure ini_file where
  filename : std_string
  content : List std_string

/-- `ini_error`: the bail-out that reports `line + 1`. -/
def ini_error (ini : std_string) (line : Nat) (what : std_string) : bailed :=
  .format ini (line + 1) what

/-- The message `"bad line '" + line + "'"`. -/
def bad_line (line : std_string) : std_string :=
  "bad line '".toList ++ line ++ "'".toList

/-- `read_ini`: every line is trimmed, and dropped when it is empty or starts
with `#` or `;`.  (A failing stream, `in.bad()`, is not modelled.) -/
def read_ini (trim : std_string → std_string) : List std_string → List std_string
  | [] => []
  | raw :: rest =>
    let line := trim raw
    if line = [] ∨ line.head? = some '#' ∨ line.head? = some ';' then read_ini trim rest
    else line :: read_ini trim rest

/-- The store operation `parse_section` picks for one `key = value` line. -/
def store_line (task sec k v : std_string) (add : Bool) (map_ : task_map) : effect :=
  if task = [] then
    if add then add_global map_ sec k v else set_global map_ sec k v
  else
    set_for_task map_ task sec k v

/-- The loop of `parse_section`.  The list holds `lines[i], lines[i+1], ...`;
the result is the value of `i` and the effect when the loop ended. -/
def parse_section_loop (trim : std_string → std_string) (ini task sec : std_string)
    (add : Bool) : List std_string → Nat → task_map → Nat × effect
  | [], i, m => (i, ⟨none, m⟩)
  | line :: rest, i, m =>
    if line.head? = some '[' then (i, ⟨none, m⟩)
    else
      match find line '=' with
      | none => (i, ⟨some (ini_error ini i (bad_line line)), m⟩)
      | some sep =>
        let k := trim (substr line 0 sep)
        let v := trim (line.drop (sep + 1))
        if k = [] then (i, ⟨some (ini_error ini i (bad_line line)), m⟩)
        else
          let e := store_line task sec k v add m
          match e.bail with
          | some b => (i, ⟨some b, e.map_⟩)
          | none => parse_section_loop trim ini task sec add rest (i + 1) e.map_

/-- `parse_section`: `++i`, then the loop. -/
def parse_section (trim : std_string → std_string) (ini : std_string) (i : Nat)
    (lines : List std_string) (task sec : std_string) (add : Bool) (m : task_map) :
    Nat × effect :=
  parse_section_loop trim ini task sec add (lines.drop (i + 1)) (i + 1) m

/-- The task and the section a header line names (`parse_ini`, the branch of a
line that starts with `[` and ends with `]`). -/
def header (line : std_string) : std_string × std_string :=
  let s := substr line 1 (line.length - 2)
  match find s '/' with
  | none => ([], s)
  | some slash => (substr s 0 slash, s.drop (slash + 1))

/-- The loop of `parse_ini` from position `i`, with a bound on the number of
iterations; `none` when the bound is used up. -/
def parse_ini_loop (trim : std_string → std_string) (ini : std_string)
    (lines : List std_string) (add : Bool) : Nat → Nat → task_map → Option effect
  | 0, _, _ => none
  | fuel + 1, i, m =>
    match lines.get? i with
    | none => some ⟨none, m⟩
    | some line =>
      if starts_with line ['['] && ends_with line [']'] then
        let r := parse_section trim ini i lines (header line).1 (header line).2 add m
        match r.2.bail with
        | some b => some ⟨some b, r.2.map_⟩
        | none => parse_ini_loop trim ini lines add fuel r.1 r.2.map_
      else some ⟨some (ini_error ini i (bad_line line)), m⟩

/-- `parse_ini`: the loop over the lines `read_ini` kept, from `i = 0`.  Every
iteration but the last moves `i` forward, so `lines.size() + 1` iterations are
enough (`parse_ini_loop_walk`, `parse_ini_eq_walk`). -/
def parse_ini (trim : std_string → std_string) (ini : ini_file) (add : Bool)
    (m : task_map) : Option effect :=
  let lines := read_ini trim ini.content
  parse_ini_loop trim ini.filename lines add (lines.length + 1) 0 m

/-- One pass over the lines `lines[i], lines[i+1], ...` that does what the
nested loops of `parse_ini` and `parse_section` do together; `cur` is the task
and section of the header the pass is under, `none` before the first header.
It is the form in which the two loops are reasoned about (`parse_ini_eq_walk`). -/
def ini_walk (trim : std_string → std_string) (ini : std_string) (add : Bool) :
    Option (std_string × std_string) → List std_string → Nat → task_map → effect
  | _, [], _, m => ⟨none, m⟩
  | cur, line :: rest, i, m =>
    if line.head? = some '[' then
      if ends_with line [']'] then ini_walk trim ini add (some (header line)) rest (i + 1) m
      else ⟨some (ini_error ini i (bad_line line)), m⟩
    else
      match cur with
      | none => ⟨some (ini_error ini i (bad_line line)), m⟩
      | some ts =>
        match find line '=' with
        | none => ⟨some (ini_error ini i (bad_line line)), m⟩
        | some sep =>
          if trim (substr line 0 sep) = [] then ⟨some (ini_error ini i (bad_line line)), m⟩
          else
            match (store_line ts.1 ts.2 (trim (substr line 0 sep))
                (trim (line.drop (sep + 1))) add m).bail with
            | some b => ⟨some b, (store_line ts.1 ts.2 (trim (substr line 0 sep))
                (trim (line.drop (sep + 1))) add m).map_⟩
            | none => ini_walk trim ini add cur rest (i + 1)
                (store_line ts.1 ts.2 (trim (substr line 0 sep))
                  (trim (line.drop (sep + 1))) add m).map_

/-- A line `read_ini` keeps as it is: trimming does not change it, it is not
empty and it does not start with `#` or `;`. -/
def kept (trim : std_string → std_string) (line : std_string) : Prop :=
  trim line = line ∧ line ≠ [] ∧ line.head? ≠ some '#' ∧ line.head? ≠ some ';'

instance (trim : std_string → std_string) (line : std_string) : Decidable (kept trim line) := by
  unfold kept
  exact inferInstance

/-- The header line `[name]`. -/
def header_line (name : std_string) : std_string :=
  '[' :: name ++ [']']

/-- The body line `key=value`. -/
def body_line (key value : std_string) : std_string :=
  key ++ '=' :: value

/-- The four lines `[S]`, `K=V1`, `[T/S]`, `K=V2`. -/
def four_lines (S K T V1 V2 : std_string) : List std_string :=
  [header_line S, body_line K V1, header_line (T ++ '/' :: S), body_line K V2]

/-- A line is a `[...]` header for `parse_ini`: it starts with `[` and ends
with `]`. -/
def is_header (line : std_string) : Bool :=
  starts_with line ['['] && ends_with line [']']

/-- The header the pass is under once it has gone over `lines`, having
started under `cur`. -/
def cur_after (cur : Option (std_string × std_string)) :
    List std_string → Option (std_string × std_string)
  | [] => cur
  | line :: rest =>
    if line.head? = some '[' then cur_after (some (header line)) rest else cur_after cur rest

/-- The value stored under `task`, `sec`, `key`, if the three levels exist. -/
def stored (map_ : task_map) (task sec key : std_string) : Option std_string :=
  match map_find map_ task with
  | none => none
  | some sections =>
    match map_find sections sec with
    | none => none
    | some keys => map_find keys key

/-- The section `sec` of the global layer, if there is one. -/
def global_section (map_ : task_map) (sec : std_string) : Option key_value_map :=
  match map_find map_ [] with
  | none => none
  | some global => map_find global sec

/-- Every key a task layer holds is a key of the global layer. -/
def schema_subset (m : task_map) : Prop :=
  ∀ t s k v, stored m t s k = some v → ∃ g, stored m [] s k = some g

/-- The stores that calls of `add_global`, `set_global` and `set_for_task`
build, starting from the empty static `conf::map_`. -/
inductive reachable : task_map → Prop where
  | init : reachable []
  | add_global (m : task_map) (sec key value : std_string) :
      reachable m → reachable (add_global m sec key value).map_
  | set_global (m : task_map) (sec key value : std_string) :
      reachable m → reachable (set_global m sec key value).map_
  | set_for_task (m : task_map) (task sec key value : std_string) :
      reachable m → reachable (set_for_task m task sec key value).map_

/-- A store in which task `A` has a layer without the section `paths` and task
`B` holds `paths/foo`, built by the store's own operations. -/
def two_task_store : task_map :=
  (set_for_task
    (set_for_task
      (add_global (add_global [] "paths".toList "foo".toList "/a/b".toList).map_
        "options".toList "x".toList "1".toList).map_
      "A".toList "options".toList "x".toList "2".toList).map_
    "B".toList "paths".toList "foo".toList "/c/d".toList).map_

/-- A store whose global layer holds only `paths/foo`. -/
def one_key_store : task_map :=
  (add_global [] "paths".toList "foo".toList "/a/b".toList).map_

/-! ### Command-line options: `parse_option` -/

/-- The constant `std::string::npos`, the largest `size_t`. -/
def npos : Nat := 2 ^ 64 - 1

/-- The result of a search as a `size_t`: the position, `npos` when there is
none. -/
def size_t_of : Option Nat → Nat
  | none => npos
  | some i => i

/-- The difference `a - b` of two `size_t`. -/
def size_t_sub (a b : Nat) : Nat :=
  (a + 2 ^ 64 - b) % 2 ^ 64

/-- The sum `a + b` of two `size_t`. -/
def size_t_add (a b : Nat) : Nat :=
  (a + b) % 2 ^ 64

/-- The call `s.find(c, pos)` for a one-character pattern. -/
def find_from (s : std_string) (c : Char) (pos : Nat) : Option Nat :=
  (find (s.drop pos) c).map (· + pos)

/-- The struct `parsed_option`; its first member is `section`. -/
structure parsed_option where
  sec : std_string
  key : std_string
  value : std_string
  deriving DecidableEq, Repr

instance : DecidableEq (Except bailed parsed_option) := fun a b =>
  match a, b with
  | .ok x, .ok y => decidable_of_iff (x = y) (by simp)
  | .error x, .error y => decidable_of_iff (x = y) (by simp)
  | .ok _, .error _ => isFalse (by simp)
  | .error _, .ok _ => isFalse (by simp)

/-- The message `"bad option {}, must be section/key=value"`. -/
def bad_option (s : std_string) : std_string :=
  "bad option ".toList ++ s ++ ", must be section/key=value".toList

/-- `parse_option`.  The second test is on `slash`, as in the source; the
positions are `size_t`, so `equal - slash - 1` and `equal + 1` wrap around. -/
def parse_option (s : std_string) : Except bailed parsed_option :=
  let slash := size_t_of (find s '/')
  if slash = npos then .error (.fatal (bad_option s))
  else
    let equal := size_t_of (find_from s '=' slash)
    if slash = npos then .error (.fatal (bad_option s))
    else
      .ok ⟨substr s 0 slash,
        substr s (slash + 1) (size_t_sub (size_t_sub equal slash) 1),
        s.drop (size_t_add equal 1)⟩

/-! ### Paths and the file system -/

/-- The operations of `std::filesystem` and the state of the file system the
embedded functions consult.  A `fs::path` is the string it is built from and
converted back to; `div` is `operator/` (and `/=`), `exists_` is `fs::exists`,
`directory` lists the entries `fs::directory_iterator` delivers.  They are
parameters: what is proved holds for every such record. -/
structure filesystem where
  div : std_string → std_string → std_string
  is_relative : std_string → Bool
  exists_ : std_string → Bool
  equivalent : std_string → std_string → Bool
  absolute : std_string → std_string
  canonical : std_string → std_string
  weakly_canonical : std_string → std_string
  parent_path : std_string → std_string
  filename : std_string → std_string
  extension : std_string → std_string
  directory : std_string → List std_string
  current_path : std_string

/-- What a call of `try_parts` leaves: its result, the value of `check`, and
the paths it traced with `"trying parts {}"`, in order. -/
structure probe where
  found : Bool
  check : std_string
  tried : List std_string
  deriving DecidableEq, Repr

/-- `try_parts`.  The list holds `parts[i], parts[i+1], ...`: the inner loop
joins all of them to `check`, the outer loop moves on to `i + 1`. -/
def try_parts (fs : filesystem) (check : std_string) : List std_string → probe
  | [] => ⟨false, check, []⟩
  | part :: rest =>
    let p := (part :: rest).foldl fs.div check
    if fs.exists_ p then ⟨true, p, [p]⟩
    else ⟨(try_parts fs check rest).found, (try_parts fs check rest).check,
      p :: (try_parts fs check rest).tried⟩

/-- The path `base/Pi/.../Pn` for the parts from position `i` on (counted from
0). -/
def suffix_path (fs : filesystem) (base : std_string) (parts : List std_string) (i : Nat) :
    std_string :=
  (parts.drop i).foldl fs.div base

/-- The text of a path before its last `/` (generic format). -/
def generic_parent_path (p : std_string) : std_string :=
  ((p.reverse.dropWhile (fun c => c ≠ '/')).drop 1).reverse

/-- The text of a path after its last `/` (generic format). -/
def generic_filename (p : std_string) : std_string :=
  (p.reverse.takeWhile (fun c => c ≠ '/')).reverse

/-- The extension of a path, as `std::filesystem::path::extension` gives it:
empty for the file names `.` and `..`, and otherwise the file name from its
last `.` on, where a `.` that is the first character of the file name does not
count (so `.ini` and `.profile` have an empty extension, `a.ini` has `.ini`
and `..bar` has `.bar`). -/
def generic_extension (p : std_string) : std_string :=
  if generic_filename p = "..".toList then []
  else if ((generic_filename p).drop 1).any (fun c => c = '.') then
    '.' :: (((generic_filename p).drop 1).reverse.takeWhile (fun c => c ≠ '.')).reverse
  else []

/-- A flat file system for examples, with paths in the generic format: the
files are those of the list, `a / b` is `b` when `b` starts with `/` and `a`,
a `/` and `b` otherwise, a path is relative when it does not start with `/`,
and two paths are equivalent when they are the same existing path. -/
def sample_fs (files : List std_string) (cwd : std_string) : filesystem where
  div := fun a b =>
    if b.head? = some '/' then b
    else if a = [] then b
    else if a.getLast? = some '/' then a ++ b
    else a ++ '/' :: b
  is_relative := fun p => p.head? ≠ some '/'
  exists_ := fun p => files.any (fun f => f = p)
  equivalent := fun a b => decide (a = b) && files.any (fun f => f = a)
  absolute := fun p => p
  canonical := fun p => p
  weakly_canonical := fun p => p
  parent_path := generic_parent_path
  filename := generic_filename
  extension := generic_extension
  directory := fun d => files.filter (fun p => generic_parent_path p = d)
  current_path := cwd

/-! ### Canonical paths: `make_canonical_path` -/

/-- `conf::path_by_name`. -/
def path_by_name (map_ : task_map) (name : std_string) : Except bailed std_string :=
  get_global map_ "paths".toList name

/-- `conf::tool_by_name`. -/
def tool_by_name (map_ : task_map) (name : std_string) : Except bailed std_string :=
  get_global map_ "tools".toList name

/-- `make_canonical_path`; `dry` is the value of `conf::dry()`, which `conf.h`
declares. -/
def make_canonical_path (fs : filesystem) (dry : Bool) (map_ : task_map)
    (key default_parent default_dir : std_string) : effect :=
  match path_by_name map_ key with
  | .error e => ⟨some e, map_⟩
  | .ok p =>
    let p1 :=
      if p = [] then fs.div default_parent default_dir
      else if fs.is_relative p then fs.div default_parent p
      else p
    let p2 := if !dry then fs.weakly_canonical (fs.absolute p1) else p1
    set_global map_ "paths".toList key p2

/-- Modelled from the spec: `paths::prefix()` and `paths::install()`, which
`conf.h` declares, are the values of the keys `prefix` and `install` of the
section `paths` ("default leaf install under prefix, default leaf bin under the
resolved install value").  With them, the two calls of `init_options`
`make_canonical_path("install", paths::prefix(), "install")` and
`make_canonical_path("install_bin", paths::install(), "bin")`, in this order. -/
def init_options_install (fs : filesystem) (dry : Bool) (map_ : task_map) : effect :=
  match path_by_name map_ "prefix".toList with
  | .error e => ⟨some e, map_⟩
  | .ok prefix_ =>
    match (make_canonical_path fs dry map_ "install".toList prefix_ "install".toList).bail with
    | some b =>
      ⟨some b, (make_canonical_path fs dry map_ "install".toList prefix_ "install".toList).map_⟩
    | none =>
      match path_by_name
          (make_canonical_path fs dry map_ "install".toList prefix_ "install".toList).map_
          "install".toList with
      | .error e =>
        ⟨some e, (make_canonical_path fs dry map_ "install".toList prefix_ "install".toList).map_⟩
      | .ok install =>
        make_canonical_path fs dry
          (make_canonical_path fs dry map_ "install".toList prefix_ "install".toList).map_
          "install_bin".toList install "bin".toList

/-- A store with `prefix = /root` and `install`, `install_bin` unset (empty). -/
def root_prefix_store : task_map :=
  [([], [("paths".toList,
    [("prefix".toList, "/root".toList), ("install".toList, []), ("install_bin".toList, [])])])]

/-! ### The cmake tool (`src/tools/cmake.cpp`) -/

/-- The values that accessors declared in `conf.h` return: `vs::version()`,
`vs::year()`, `vs::vswhere()`, `vs::installation_path()`, `qt::version()`,
`qt::vs_version()`, `qt::installation_path()`.  They are parameters. -/
structure conf_values where
  vs_version : std_string
  vs_year : std_string
  vs_vswhere : std_string
  vs_installation_path : std_string
  qt_version : std_string
  qt_vs_version : std_string
  qt_installation_path : std_string

/-- Modelled from the spec: the enumeration `arch`, declared outside the
sources; the spec has three settings, 32-bit, 64-bit and architecture-agnostic,
which the switches of `get_arch` and `output_dir` name `x86`, `x64` and
`dont_care`.  With these three the `default` branches of the two switches are
not reached. -/
inductive arch where
  | x86 : arch
  | x64 : arch
  | dont_care : arch
  deriving DecidableEq, Repr

/-- The enumeration `cmake::ops`: `clean`, `generate`, and any other value,
which `do_run` sends to its `default` branch. -/
inductive ops where
  | clean : ops
  | generate : ops
  | other (code : Nat) : ops
  deriving DecidableEq, Repr

/-- The enumeration `cmake::generators`: `vs`, `jom`, and any other value,
which the generator table does not hold. -/
inductive generators where
  | vs : generators
  | jom : generators
  | other (code : Nat) : generators
  deriving DecidableEq, Repr

/-- The struct `cmake::gen_info`, in the order of the initializers of
`all_generators`: output directory, display name, flag for x86, flag for x64. -/
structure gen_info where
  dir : std_string
  name : std_string
  x86 : std_string
  x64 : std_string
  deriving DecidableEq, Repr

/-- `cmake::all_generators` with `find` applied: the entry of a generator. -/
def all_generators (cv : conf_values) : generators → Option gen_info
  | .jom => some ⟨"build".toList, "NMake Makefiles JOM".toList, [], []⟩
  | .vs => some ⟨"vsbuild".toList,
      "Visual Studio ".toList ++ cv.vs_version ++ " ".toList ++ cv.vs_year,
      "Win32".toList, "x64".toList⟩
  | .other _ => none

/-- `cmake::get_generator`. -/
def get_generator (cv : conf_values) (g : generators) : Except bailed gen_info :=
  match all_generators cv g with
  | none => .error (.fatal "unknown generator".toList)
  | some info => .ok info

/-- `cmake::gen_info::get_arch`. -/
def get_arch (g : gen_info) : arch → std_string
  | .x86 => if g.x86 = [] then [] else "-A ".toList ++ g.x86
  | .x64 => if g.x64 = [] then [] else "-A ".toList ++ g.x64
  | .dont_care => []

/-- `cmake::gen_info::output_dir`. -/
def output_dir (g : gen_info) : arch → std_string
  | .x86 => g.dir ++ "_32".toList
  | .x64 => g.dir
  | .dont_care => g.dir

/-- The members of the class `cmake`. -/
structure cmake where
  op_ : ops
  gen_ : generators
  genstring_ : std_string
  root_ : std_string
  output_ : std_string
  prefix_ : std_string
  def_ : List (std_string × std_string)
  arch_ : arch
  cmd_ : std_string
  deriving DecidableEq, Repr

/-- `cmake::def(name, value)`: `def_.emplace_back(name, value)`. -/
def cmake_def (c : cmake) (name value : std_string) : cmake :=
  { c with def_ := c.def_ ++ [(name, value)] }

/-- `cmake::build_path`. -/
def build_path (cv : conf_values) (fs : filesystem) (c : cmake) : Except bailed std_string :=
  if c.output_ ≠ [] then .ok c.output_
  else
    match get_generator cv c.gen_ with
    | .error e => .error e
    | .ok g => .ok (fs.div c.root_ (output_dir g c.arch_))

/-- `cmake::result`. -/
def result (cv : conf_values) (fs : filesystem) (c : cmake) : Except bailed std_string :=
  build_path cv fs c

/-- One call of `process::arg`: `arg(s)` or `arg(name, value)`. -/
inductive process_arg where
  | one (s : std_string) : process_arg
  | two (name value : std_string) : process_arg
  deriving DecidableEq, Repr

/-- The process `do_generate` sets up, as the calls made on it: the binary, the
`arg` calls in order, the architecture given to `env::vs`, the variables set on
that environment, and the working directory.  The class `process` is outside
the sources; how it renders the calls is not modelled. -/
structure process where
  binary : std_string
  args : List process_arg
  env_arch : arch
  env_set : List (std_string × std_string)
  cwd : std_string
  deriving DecidableEq, Repr

/-- The four `arg` calls every `do_generate` starts with. -/
def baseline_args : List process_arg :=
  [.one "-DCMAKE_BUILD_TYPE=Release".toList, .one "-DCMAKE_INSTALL_MESSAGE=NEVER".toList,
    .one "--log-level=ERROR".toList, .one "--no-warn-unused-cli".toList]

/-- The text of `s` between two double quotes. -/
def quoted (s : std_string) : std_string :=
  '"' :: s ++ ['"']

/-- `cmake::do_generate`, up to `set_process(p)`; `binary()` is
`conf::tool_by_name("cmake")`. -/
def do_generate (cv : conf_values) (fs : filesystem) (map_ : task_map) (c : cmake) :
    Except bailed process :=
  if c.root_ = [] then .error (.fatal "cmake output path is empty".toList)
  else
    match get_generator cv c.gen_ with
    | .error e => .error e
    | .ok g =>
      match tool_by_name map_ "cmake".toList with
      | .error e => .error e
      | .ok bin =>
        match build_path cv fs c with
        | .error e => .error e
        | .ok cwd =>
          .ok ⟨bin,
            baseline_args ++
              (if c.genstring_ = [] then
                [.two "-G".toList (quoted g.name), .one (get_arch g c.arch_)]
              else [.two "-G".toList (quoted c.genstring_)]) ++
              (if c.prefix_ ≠ [] then [.two "-DCMAKE_INSTALL_PREFIX=".toList c.prefix_] else []) ++
              c.def_.map (fun d => .one ("-D".toList ++ d.1 ++ "=".toList ++ d.2 ++ [])) ++
              (if c.cmd_ = [] then [.one "..".toList] else [.one c.cmd_]),
            c.arch_, [("CXXFLAGS".toList, "/wd4566".toList)], cwd⟩

/-- What a run of the tool does: delete a directory tree (`do_clean`) or run
the process `do_generate` set up. -/
inductive tool_action where
  | delete_directory (path : std_string) : tool_action
  | run (p : process) : tool_action
  deriving DecidableEq, Repr

/-- The message `"bad cmake op {}"`. -/
def bad_cmake_op (code : Nat) : std_string :=
  "bad cmake op ".toList ++ Nat.toDigits 10 code

/-- `cmake::do_run`, with `do_clean` in its first branch. -/
def do_run (cv : conf_values) (fs : filesystem) (map_ : task_map) (c : cmake) :
    Except bailed tool_action :=
  match c.op_ with
  | .clean =>
    match build_path cv fs c with
    | .error e => .error e
    | .ok path => .ok (.delete_directory path)
  | .generate =>
    match do_generate cv fs map_ c with
    | .error e => .error e
    | .ok p => .ok (.run p)
  | .other code => .error (.fatal (bad_cmake_op code))

instance : DecidableEq (Except bailed process) := fun a b =>
  match a, b with
  | .ok x, .ok y => decidable_of_iff (x = y) (by simp)
  | .error x, .error y => decidable_of_iff (x = y) (by simp)
  | .ok _, .error _ => isFalse (by simp)
  | .error _, .ok _ => isFalse (by simp)

instance : DecidableEq (Except bailed tool_action) := fun a b =>
  match a, b with
  | .ok x, .ok y => decidable_of_iff (x = y) (by simp)
  | .error x, .error y => decidable_of_iff (x = y) (by simp)
  | .ok _, .error _ => isFalse (by simp)
  | .error _, .ok _ => isFalse (by simp)

/-- Sample values of the accessors. -/
def sample_values : conf_values :=
  ⟨"16".toList, "2019".toList, "vswhere.exe".toList, "/vs".toList, "5.14.2".toList,
    "2017".toList, "/qt".toList⟩

/-- A store that holds `tools/cmake`. -/
def cmake_store : task_map :=
  [([], [("tools".toList, [("cmake".toList, "cmake.exe".toList)])])]

/-- A tool whose generator identifier is not registered, with a literal
generator string and an output override. -/
def ninja_cmake (op : ops) : cmake :=
  ⟨op, .other 0, "Ninja".toList, "src".toList, "out".toList, [], [], .x64, []⟩

/-! ### The order of the ini files: `find_inis` -/

/-- `master_ini_filename`. -/
def master_ini_filename : std_string :=
  "mob.ini".toList

/-- `find_master_ini`. -/
def find_master_ini (fs : filesystem) : Except bailed std_string :=
  if (try_parts fs fs.current_path
      ["..".toList, "..".toList, "..".toList, master_ini_filename]).found then
    .ok (fs.canonical (try_parts fs fs.current_path
      ["..".toList, "..".toList, "..".toList, master_ini_filename]).check)
  else .error (.fatal ("can't find master ini ".toList ++ master_ini_filename))

/-- The first loop of `find_inis`: the entries of the directory of the master
whose extension is `.ini` and whose file name is not that of the master. -/
def sibling_inis (fs : filesystem) (master : std_string) : List std_string :=
  (fs.directory (fs.parent_path master)).filter
    (fun p => decide (fs.extension p = ".ini".toList) &&
      !decide (fs.filename p = fs.filename master))

/-- The call `std::sort(v.begin(), v.end())`: the paths in lexicographic
order. -/
def sort_paths (v : List std_string) : List std_string :=
  List.insertionSort (· ≤ ·) v

/-- The loop over `v` for one caller-supplied `p`: `v` without its first entry
that `fs::equivalent(p, entry)` holds of; `none` when there is no such entry
and `found` stays false. -/
def erase_equivalent (fs : filesystem) (p : std_string) :
    List std_string → Option (List std_string)
  | [] => none
  | x :: rest =>
    if fs.equivalent p x then some rest
    else (erase_equivalent fs p rest).map (fun r => x :: r)

/-- The list `v` without its first entry equivalent to `p`, if it has one. -/
def strip_equivalent (fs : filesystem) (p : std_string) (v : List std_string) :
    List std_string :=
  (erase_equivalent fs p v).getD v

/-- One round of the loop over `inis_from_cl`, for a `p` that exists: in both
branches `p` is pushed at the end. -/
def add_ini (fs : filesystem) (v : List std_string) (p : std_string) : List std_string :=
  match erase_equivalent fs p v with
  | some erased => erased ++ [p]
  | none => v ++ [p]

/-- The loop over `inis_from_cl`. -/
def add_inis (fs : filesystem) : List std_string → List std_string →
    Except bailed (List std_string)
  | v, [] => .ok v
  | v, p :: rest =>
    if !fs.exists_ p then .error (.fatal ("ini ".toList ++ p ++ " not found".toList))
    else add_inis fs (add_ini fs v p) rest

/-- `find_inis`. -/
def find_inis (fs : filesystem) (inis_from_cl : List std_string) :
    Except bailed (List std_string) :=
  match find_master_ini fs with
  | .error e => .error e
  | .ok master => add_inis fs (master :: sort_paths (sibling_inis fs master)) inis_from_cl

instance : DecidableEq (Except bailed (List std_string)) := fun a b =>
  match a, b with
  | .ok x, .ok y => decidable_of_iff (x = y) (by simp)
  | .error x, .error y => decidable_of_iff (x = y) (by simp)
  | .ok _, .error _ => isFalse (by simp)
  | .error _, .ok _ => isFalse (by simp)

/-- A directory `/r` with the master ini and the siblings `b.ini`, `a.ini` and
`notes.txt`; the working directory is `/r`. -/
def ini_dir_fs : filesystem :=
  sample_fs ["/r/mob.ini".toList, "/r/b.ini".toList, "/r/a.ini".toList, "/r/notes.txt".toList,
    "/x/extra.ini".toList] "/r".toList

/-! ### Locating the toolchain: `find_vs`, `find_vcvars`, `set_path_if_empty`,
`validate_qt` -/

/-- `find_qmake`: the result and the value of `check`. -/
def find_qmake (cv : conf_values) (fs : filesystem) (check : std_string) : Bool × std_string :=
  if (try_parts fs check
      ["Qt".toList, "Qt".toList ++ cv.qt_version,
        "msvc".toList ++ cv.qt_vs_version ++ "_64".toList, "bin".toList,
        "qmake.exe".toList]).found then
    (true, (try_parts fs check
      ["Qt".toList, "Qt".toList ++ cv.qt_version,
        "msvc".toList ++ cv.qt_vs_version ++ "_64".toList, "bin".toList,
        "qmake.exe".toList]).check)
  else if (try_parts fs check
      ["Qt".toList, cv.qt_version,
        "msvc".toList ++ cv.qt_vs_version ++ "_64".toList, "bin".toList,
        "qmake.exe".toList]).found then
    (true, (try_parts fs check
      ["Qt".toList, cv.qt_version,
        "msvc".toList ++ cv.qt_vs_version ++ "_64".toList, "bin".toList,
        "qmake.exe".toList]).check)
  else (false, check)

/-- `try_qt_location`: the result and the value of `check`. -/
def try_qt_location (cv : conf_values) (fs : filesystem) (check : std_string) :
    Bool × std_string :=
  if !(find_qmake cv fs check).1 then (false, (find_qmake cv fs check).2)
  else (true, fs.absolute (fs.div (fs.parent_path (find_qmake cv fs check).2) "..".toList))

/-- `validate_qt`.  The source has no test of `conf::dry()` here. -/
def validate_qt (cv : conf_values) (fs : filesystem) (map_ : task_map) : effect :=
  if !(try_qt_location cv fs cv.qt_installation_path).1 then
    ⟨some (.fatal ("qt path ".toList ++ (try_qt_location cv fs cv.qt_installation_path).2 ++
      " doesn't exist".toList)), map_⟩
  else
    set_global map_ "paths".toList "qt_install".toList
      (try_qt_location cv fs cv.qt_installation_path).2

/-- What a call of `find_vs` leaves: its result or bail-out, and whether it ran
the process `vswhere`. -/
structure vs_lookup where
  result : Except bailed std_string
  spawned : Bool

/-- `find_vs`; `exit_code` and `stdout_string` are what the process `vswhere`
yields when it is run, `trim` is `trim_copy`. -/
def find_vs (cv : conf_values) (fs : filesystem) (trim : std_string → std_string)
    (dry : Bool) (exit_code : Int) (stdout_string : std_string) : vs_lookup :=
  if dry then ⟨.ok cv.vs_vswhere, false⟩
  else if exit_code ≠ 0 then ⟨.error (.fatal "vswhere failed".toList), true⟩
  else if !fs.exists_ (trim stdout_string) then
    ⟨.error (.fatal ("the path given by vswhere doesn't exist: ".toList ++
      trim stdout_string)), true⟩
  else ⟨.ok (trim stdout_string), true⟩

/-- `try_vcvars`: the result and the value of `bat`. -/
def try_vcvars (fs : filesystem) (bat : std_string) : Bool × std_string :=
  if !fs.exists_ bat then (false, bat) else (true, fs.canonical (fs.absolute bat))

/-- The default location of the script in `find_vcvars`. -/
def default_vcvars (cv : conf_values) (fs : filesystem) : std_string :=
  fs.div (fs.div (fs.div (fs.div cv.vs_installation_path "VC".toList) "Auxiliary".toList)
    "Build".toList) "vcvarsall.bat".toList

/-- `find_vcvars`.  In the dry branch `bat` is a local that is assigned and
dropped: the function returns without writing the store. -/
def find_vcvars (cv : conf_values) (fs : filesystem) (dry : Bool) (map_ : task_map) : effect :=
  match tool_by_name map_ "vcvars".toList with
  | .error e => ⟨some e, map_⟩
  | .ok bat =>
    if dry then ⟨none, map_⟩
    else
      let bat1 := if bat = [] then default_vcvars cv fs else bat
      if !(try_vcvars fs bat1).1 then
        ⟨some (.fatal ("vcvars not found at ".toList ++ (try_vcvars fs bat1).2)), map_⟩
      else set_global map_ "tools".toList "vcvars".toList (try_vcvars fs bat1).2

/-- `set_path_if_empty`; `f` is what the fallback yields when it is called (a
value, or the bail-out it ends with), and it is called only for an empty
value. -/
def set_path_if_empty (fs : filesystem) (dry : Bool) (map_ : task_map) (k : std_string)
    (f : Except bailed std_string) : effect :=
  match get_global map_ "paths".toList k with
  | .error e => ⟨some e, map_⟩
  | .ok p0 =>
    match (if p0 = [] then f else .ok p0) with
    | .error e => ⟨some e, map_⟩
    | .ok p =>
      if !dry then
        if !fs.exists_ (fs.absolute p) then
          ⟨some (.fatal ("path ".toList ++ fs.absolute p ++ " not found".toList)), map_⟩
        else set_global map_ "paths".toList k (fs.canonical (fs.absolute p))
      else set_global map_ "paths".toList k (fs.absolute p)

/-- A store with the keys the locating steps read. -/
def toolchain_store : task_map :=
  [([], [("paths".toList, [("qt_install".toList, "/qt".toList), ("vs".toList, [])]),
    ("tools".toList, [("vcvars".toList, [])])])]

/-! ### Stores built from a global layer -/

/-- A store that holds at most a global layer: no task of a non-empty name has
a layer. -/
def only_global (m : task_map) : Prop :=
  ∀ t, t ≠ [] → map_find m t = none

/-- The stores that calls of `add_global`, `set_global` and `set_for_task`
which return build, starting from the store `m0`. -/
inductive reachable_from (m0 : task_map) : task_map → Prop where
  | start : reachable_from m0 m0
  | add_global (m : task_map) (sec key value : std_string) :
      reachable_from m0 m → (add_global m sec key value).bail = none →
      reachable_from m0 (add_global m sec key value).map_
  | set_global (m : task_map) (sec key value : std_string) :
      reachable_from m0 m → (set_global m sec key value).bail = none →
      reachable_from m0 (set_global m sec key value).map_
  | set_for_task (m : task_map) (task sec key value : std_string) :
      reachable_from m0 m → (set_for_task m task sec key value).bail = none →
      reachable_from m0 (set_for_task m task sec key value).map_

/-- The value the layer that `get_for_task` selects holds under `sec`, `key`:
`none` when no candidate has a layer or the layer lacks the section or the
key. -/
def selected_value (m : task_map) (task_names : List std_string) (sec key : std_string) :
    Option std_string :=
  match find_task m task_names with
  | none => none
  | some layer =>
    match map_find layer sec with
    | none => none
    | some keys => map_find keys key

/-- A tool whose generator identifier is not registered, with no output
override. -/
def unregistered_cmake : cmake :=
  ⟨.generate, .other 0, [], "src".toList, [], [], [], .x64, []⟩

/-- A tool of the given generator and architecture with the source root `src`
and no output override. -/
def src_cmake (gen : generators) (a : arch) : cmake :=
  ⟨.generate, gen, [], "src".toList, [], [], [], a, []⟩

/-- The part list of the first probe of `find_qmake`: `Qt`, `Qt` followed by
the version, the `msvc` directory, `bin`, `qmake.exe`. -/
def qmake_parts_prefixed (cv : conf_values) : List std_string :=
  ["Qt".toList, "Qt".toList ++ cv.qt_version,
    "msvc".toList ++ cv.qt_vs_version ++ "_64".toList, "bin".toList, "qmake.exe".toList]

/-- The part list of the second probe of `find_qmake`: `Qt`, the version, the
`msvc` directory, `bin`, `qmake.exe`. -/
def qmake_parts_plain (cv : conf_values) : List std_string :=
  ["Qt".toList, cv.qt_version,
    "msvc".toList ++ cv.qt_vs_version ++ "_64".toList, "bin".toList, "qmake.exe".toList]

/-- No path that `find_qmake` probes from `check` exists: none of the suffix
paths of its two part lists. -/
def qmake_missing (cv : conf_values) (fs : filesystem) (check : std_string) : Prop :=
  (∀ i, i < 5 → fs.exists_ (suffix_path fs check (qmake_parts_prefixed cv) i) = false) ∧
    (∀ i, i < 5 → fs.exists_ (suffix_path fs check (qmake_parts_plain cv) i) = false)

/-- A file system in which the Qt directory `/qt` exists and holds no qmake. -/
def qt_without_qmake_fs : filesystem :=
  sample_fs ["/qt".toList, "/qt/Qt".toList, "/qt/Qt/5.14.2".toList] "/w".toList

/-- A file system in which qmake is found under the Qt installation path
`/qt`, as `/qt/bin/qmake.exe`. -/
def qt_with_qmake_fs : filesystem :=
  sample_fs ["/qt".toList, "/qt/bin".toList, "/qt/bin/qmake.exe".toList] "/w".toList

/-! ### Lemmas on the maps -/

theorem map_find_put {α : Type} (m : List (std_string × α)) (k k' : std_string) (v : α) :
    map_find (map_put m k v) k' = if k = k' then some v else map_find m k' := by
  induction m with
  | nil => simp [map_put, map_find]
  | cons hd tl ih =>
    obtain ⟨a, b⟩ := hd
    by_cases h : a = k
    · subst h
      by_cases h' : a = k' <;> simp [map_put, map_find, h']
    · by_cases h' : a = k'
      · subst h'
        have hk : ¬ k = a := fun e => h e.symm
        simp [map_put, map_find, h, hk]
      · simp [map_put, map_find, h, h', ih]

theorem map_find_put_same {α : Type} (m : List (std_string × α)) (k : std_string) (v : α) :
    map_find (map_put m k v) k = some v := by
  simp [map_find_put]

theorem map_find_put_other {α : Type} (m : List (std_string × α)) (k k' : std_string) (v : α)
    (h : k ≠ k') : map_find (map_put m k v) k' = map_find m k' := by
  simp [map_find_put, h]

theorem stored_assign (m : task_map) (t s k v t' s' k' : std_string) :
    stored (assign m t s k v) t' s' k' =
      if t = t' ∧ s = s' ∧ k = k' then some v else stored m t' s' k' := by
  unfold stored assign
  by_cases ht : t = t'
  · subst ht
    by_cases hs : s = s'
    · subst hs
      by_cases hk : k = k'
      · subst hk
        simp [map_find_put]
      · cases h1 : map_find m t with
        | none => simp [map_find_put, hk, map_find]
        | some sections =>
          cases h2 : map_find sections s with
          | none => simp [map_find_put, hk, map_find, h2]
          | some keys => simp [map_find_put, hk, map_find, h2]
    · cases h1 : map_find m t <;> simp [map_find_put, hs, map_find]
  · simp [map_find_put, ht]

theorem get_global_eq_stored (m : task_map) (s k : std_string) (v : std_string) :
    get_global m s k = .ok v ↔ stored m [] s k = some v := by
  unfold get_global stored
  cases h1 : map_find m [] with
  | none => simp
  | some g =>
    cases h2 : map_find g s with
    | none => simp [h2]
    | some kv => cases h3 : map_find kv k <;> simp [h2, h3]

theorem get_global_ok_iff (m : task_map) (s k : std_string) :
    (∃ v, get_global m s k = .ok v) ↔ ∃ v, stored m [] s k = some v := by
  constructor
  · rintro ⟨v, h⟩
    exact ⟨v, (get_global_eq_stored m s k v).1 h⟩
  · rintro ⟨v, h⟩
    exact ⟨v, (get_global_eq_stored m s k v).2 h⟩

theorem set_global_eq_assign (m : task_map) (s k v g : std_string)
    (h : stored m [] s k = some g) : set_global m s k v = ⟨none, assign m [] s k v⟩ := by
  unfold stored at h
  unfold set_global assign
  cases h1 : map_find m [] with
  | none => simp [h1] at h
  | some gl =>
    simp only [h1] at h
    cases h2 : map_find gl s with
    | none => simp [h2] at h
    | some kv =>
      simp only [h2] at h
      simp [h, h2]

/-! ### The schema-subset invariant -/

theorem schema_subset_assign_global (m : task_map) (s k v : std_string)
    (h : schema_subset m) : schema_subset (assign m [] s k v) := by
  intro t' s' k' v' hv
  rw [stored_assign] at hv
  rw [stored_assign]
  by_cases hc : s = s' ∧ k = k'
  · exact ⟨v, by simp [hc]⟩
  · by_cases ht : ([] : std_string) = t'
    · subst ht
      have hc' : ¬ (([] : std_string) = [] ∧ s = s' ∧ k = k') := fun e => hc e.2
      rw [if_neg hc'] at hv ⊢
      exact ⟨v', hv⟩
    · have hc1 : ¬ (([] : std_string) = t' ∧ s = s' ∧ k = k') := fun e => ht e.1
      have hc2 : ¬ (([] : std_string) = [] ∧ s = s' ∧ k = k') := fun e => hc e.2
      rw [if_neg hc1] at hv
      rw [if_neg hc2]
      exact h t' s' k' v' hv

theorem schema_subset_assign_task (m : task_map) (t s k v g : std_string)
    (hg : stored m [] s k = some g) (h : schema_subset m) :
    schema_subset (assign m t s k v) := by
  intro t' s' k' v' hv
  rw [stored_assign] at hv
  rw [stored_assign]
  by_cases hc : s = s' ∧ k = k'
  · obtain ⟨hs, hk⟩ := hc
    subst hs
    subst hk
    by_cases ht : t = []
    · exact ⟨v, by simp [ht]⟩
    · exact ⟨g, by simp [ht, hg]⟩
  · have hc1 : ¬ (t = t' ∧ s = s' ∧ k = k') := fun e => hc e.2
    have hc2 : ¬ (t = [] ∧ s = s' ∧ k = k') := fun e => hc e.2
    rw [if_neg hc1] at hv
    rw [if_neg hc2]
    exact h t' s' k' v' hv

theorem set_global_map_cases (m : task_map) (s k v : std_string) :
    ((set_global m s k v).bail = none ∧ (∃ g, stored m [] s k = some g) ∧
        (set_global m s k v).map_ = assign m [] s k v) ∨
      ((set_global m s k v).bail ≠ none ∧ stored m [] s k = none ∧
        (set_global m s k v).map_ = m) := by
  cases h : stored m [] s k with
  | some g =>
    left
    rw [set_global_eq_assign m s k v g h]
    exact ⟨rfl, ⟨g, rfl⟩, rfl⟩
  | none =>
    right
    unfold stored at h
    unfold set_global
    cases h1 : map_find m [] with
    | none => simp
    | some gl =>
      simp only [h1] at h
      cases h2 : map_find gl s with
      | none => simp [h2]
      | some kv =>
        simp only [h2] at h
        simp [h, h2]

theorem set_for_task_map_cases (m : task_map) (t s k v : std_string) :
    ((set_for_task m t s k v).bail = none ∧ (∃ g, stored m [] s k = some g) ∧
        (set_for_task m t s k v).map_ = assign m t s k v) ∨
      ((set_for_task m t s k v).bail ≠ none ∧ stored m [] s k = none ∧
        (set_for_task m t s k v).map_ = m) := by
  unfold set_for_task
  cases h : get_global m s k with
  | ok g =>
    left
    exact ⟨rfl, ⟨g, (get_global_eq_stored m s k g).1 h⟩, rfl⟩
  | error e =>
    right
    refine ⟨by simp, ?_, rfl⟩
    cases h' : stored m [] s k with
    | none => rfl
    | some g =>
      have := (get_global_eq_stored m s k g).2 h'
      rw [h] at this
      cases this

theorem reachable_schema_subset (m : task_map) (h : reachable m) : schema_subset m := by
  induction h with
  | init =>
    intro t s k v hv
    simp [stored, map_find] at hv
  | add_global m s k v _ ih => exact schema_subset_assign_global m s k v ih
  | set_global m s k v _ ih =>
    rcases set_global_map_cases m s k v with ⟨_, _, h3⟩ | ⟨_, _, h3⟩
    · rw [h3]
      exact schema_subset_assign_global m s k v ih
    · rw [h3]
      exact ih
  | set_for_task m t s k v _ ih =>
    rcases set_for_task_map_cases m t s k v with ⟨_, ⟨g, hg⟩, h3⟩ | ⟨_, _, h3⟩
    · rw [h3]
      exact schema_subset_assign_task m t s k v g hg ih
    · rw [h3]
      exact ih

/-- The value `get_for_task` reads in the layer the candidate loop selected. -/
theorem get_for_task_of_find_task (m : task_map) (names : List std_string)
    (s k : std_string) (layer : section_map) (h : find_task m names = some layer) :
    get_for_task m names s k =
      match map_find layer s with
      | none => get_global m s k
      | some kv =>
        match map_find kv k with
        | none => get_global m s k
        | some v => .ok v := by
  unfold get_for_task
  rw [h]

theorem get_for_task_of_find_task_none (m : task_map) (names : List std_string)
    (s k : std_string) (h : find_task m names = none) :
    get_for_task m names s k = get_global m s k := by
  unfold get_for_task
  rw [h]

theorem find_task_none (m : task_map) (names : List std_string)
    (h : ∀ n ∈ names, map_find m n = none) : find_task m names = none := by
  induction names with
  | nil => rfl
  | cons n rest ih =>
    have hn : map_find m n = none := h n (List.mem_cons_self n rest)
    simp only [find_task, hn]
    exact ih (fun x hx => h x (List.mem_cons_of_mem n hx))

theorem find_task_append (m : task_map) (pre post : List std_string) (t : std_string)
    (layer : section_map) (hpre : ∀ n ∈ pre, map_find m n = none)
    (ht : map_find m t = some layer) : find_task m (pre ++ t :: post) = some layer := by
  induction pre with
  | nil => simp [find_task, ht]
  | cons n rest ih =>
    have hn : map_find m n = none := hpre n (List.mem_cons_self n rest)
    simp only [List.cons_append, find_task, hn]
    exact ih (fun x hx => hpre x (List.mem_cons_of_mem n hx))

theorem find_task_mem (m : task_map) (names : List std_string) (layer : section_map)
    (h : find_task m names = some layer) : ∃ t, map_find m t = some layer := by
  induction names with
  | nil => simp [find_task] at h
  | cons n rest ih =>
    unfold find_task at h
    cases hn : map_find m n with
    | none =>
      simp only [hn] at h
      exact ih h
    | some l =>
      simp only [hn] at h
      exact ⟨n, by rw [hn, h]⟩

/-! ### The two loops of the ini parser as one pass -/

theorem starts_with_bracket (line : std_string) :
    starts_with line ['['] = true ↔ line.head? = some '[' := by
  cases line with
  | nil => simp [starts_with, List.isPrefixOf]
  | cons c rest =>
    simp only [starts_with, List.isPrefixOf, List.head?_cons, Option.some.injEq]
    simp only [Bool.and_true, beq_iff_eq]
    exact eq_comm

theorem ini_walk_bracket (trim : std_string → std_string) (ini : std_string) (add : Bool)
    (cur : Option (std_string × std_string)) (line : std_string) (rest : List std_string)
    (i : Nat) (m : task_map) (hb : line.head? = some '[') :
    ini_walk trim ini add cur (line :: rest) i m =
      ini_walk trim ini add none (line :: rest) i m := by
  simp [ini_walk, hb]

theorem parse_section_loop_walk (trim : std_string → std_string) (ini task sec : std_string)
    (add : Bool) (ls : List std_string) :
    ∀ (i : Nat) (m : task_map),
      ((parse_section_loop trim ini task sec add ls i m).2.bail ≠ none →
        ini_walk trim ini add (some (task, sec)) ls i m =
          (parse_section_loop trim ini task sec add ls i m).2) ∧
      ((parse_section_loop trim ini task sec add ls i m).2.bail = none →
        ∃ k, (parse_section_loop trim ini task sec add ls i m).1 = i + k ∧
          ini_walk trim ini add (some (task, sec)) ls i m =
            ini_walk trim ini add none (ls.drop k) (i + k)
              (parse_section_loop trim ini task sec add ls i m).2.map_) := by
  induction ls with
  | nil =>
    intro i m
    refine ⟨fun h => by simp [parse_section_loop] at h, fun _ => ⟨0, ?_, ?_⟩⟩
    · simp [parse_section_loop]
    · simp [parse_section_loop, ini_walk]
  | cons line rest ih =>
    intro i m
    by_cases hb : line.head? = some '['
    · refine ⟨fun h => by simp [parse_section_loop, hb] at h, fun _ => ⟨0, ?_, ?_⟩⟩
      · simp [parse_section_loop, hb]
      · simp only [parse_section_loop, hb, if_true, List.drop_zero, Nat.add_zero]
        exact ini_walk_bracket trim ini add _ line rest i m hb
    · cases hf : find line '=' with
      | none =>
        refine ⟨fun _ => by simp [parse_section_loop, ini_walk, hb, hf], fun h => ?_⟩
        simp [parse_section_loop, hb, hf] at h
      | some sep =>
        by_cases hk : trim (substr line 0 sep) = []
        · refine ⟨fun _ => by simp [parse_section_loop, ini_walk, hb, hf, hk], fun h => ?_⟩
          simp [parse_section_loop, hb, hf, hk] at h
        · cases he : (store_line task sec (trim (substr line 0 sep))
              (trim (line.drop (sep + 1))) add m).bail with
          | some b =>
            refine ⟨fun _ => by simp [parse_section_loop, ini_walk, hb, hf, hk, he], fun h => ?_⟩
            simp [parse_section_loop, hb, hf, hk, he] at h
          | none =>
            have hstep : parse_section_loop trim ini task sec add (line :: rest) i m =
                parse_section_loop trim ini task sec add rest (i + 1)
                  (store_line task sec (trim (substr line 0 sep))
                    (trim (line.drop (sep + 1))) add m).map_ := by
              simp [parse_section_loop, hb, hf, hk, he]
            have hwalk : ini_walk trim ini add (some (task, sec)) (line :: rest) i m =
                ini_walk trim ini add (some (task, sec)) rest (i + 1)
                  (store_line task sec (trim (substr line 0 sep))
                    (trim (line.drop (sep + 1))) add m).map_ := by
              simp [ini_walk, hb, hf, hk, he]
            rw [hstep, hwalk]
            obtain ⟨ih1, ih2⟩ := ih (i + 1) (store_line task sec (trim (substr line 0 sep))
              (trim (line.drop (sep + 1))) add m).map_
            refine ⟨ih1, fun h => ?_⟩
            obtain ⟨k, hk1, hk2⟩ := ih2 h
            refine ⟨k + 1, ?_, ?_⟩
            · rw [hk1]
              omega
            · rw [hk2]
              have : i + 1 + k = i + (k + 1) := by omega
              rw [this]
              rfl

theorem parse_ini_loop_walk (trim : std_string → std_string) (ini : std_string)
    (lines : List std_string) (add : Bool) :
    ∀ (fuel i : Nat) (m : task_map), lines.length - i < fuel →
      parse_ini_loop trim ini lines add fuel i m =
        some (ini_walk trim ini add none (lines.drop i) i m) := by
  intro fuel
  induction fuel with
  | zero =>
    intro i m h
    omega
  | succ fuel ih =>
    intro i m h
    unfold parse_ini_loop
    cases hg : lines.get? i with
    | none =>
      have hi : lines.length ≤ i := by
        rw [List.get?_eq_getElem?] at hg
        exact List.getElem?_eq_none_iff.1 hg
      rw [List.drop_of_length_le hi]
      simp [ini_walk]
    | some line =>
      have hlt : i < lines.length := by
        rw [List.get?_eq_getElem?] at hg
        exact (List.getElem?_eq_some_iff.1 hg).1
      have hline : lines[i] = line := by
        rw [List.get?_eq_getElem?] at hg
        exact (List.getElem?_eq_some_iff.1 hg).2
      have hdrop : lines.drop i = line :: lines.drop (i + 1) := by
        rw [← hline]
        exact List.drop_eq_getElem_cons hlt
      rw [hdrop]
      simp only []
      by_cases hb : line.head? = some '['
      · by_cases he : ends_with line [']'] = true
        · have hs : starts_with line ['['] = true := (starts_with_bracket line).2 hb
          simp only [hs, he, Bool.and_self, if_true]
          have hw : ini_walk trim ini add none (line :: lines.drop (i + 1)) i m =
              ini_walk trim ini add (some ((header line).1, (header line).2))
                (lines.drop (i + 1)) (i + 1) m := by
            simp [ini_walk, hb, he]
          rw [hw]
          unfold parse_section
          obtain ⟨h1, h2⟩ := parse_section_loop_walk trim ini (header line).1 (header line).2
            add (lines.drop (i + 1)) (i + 1) m
          cases hbail : (parse_section_loop trim ini (header line).1 (header line).2 add
              (lines.drop (i + 1)) (i + 1) m).2.bail with
          | some b =>
            rw [h1 (by simp [hbail])]
            simp only []
            rw [← hbail]
          | none =>
            obtain ⟨k, hk1, hk2⟩ := h2 hbail
            simp only []
            rw [hk2, hk1, ih (i + 1 + k) _ (by omega), List.drop_drop]
        · have hs : (starts_with line ['['] && ends_with line [']']) = false := by
            simp [he]
          simp [hs, ini_walk, hb, he]
      · have hs : (starts_with line ['['] && ends_with line [']']) = false := by
          have : ¬ starts_with line ['['] = true := fun e => hb ((starts_with_bracket line).1 e)
          simp [this]
        simp [hs, ini_walk, hb]

/-- The loop of `parse_ini` always ends within its bound, and does what the
single pass does on the lines `read_ini` kept. -/
theorem parse_ini_eq_walk (trim : std_string → std_string) (ini : ini_file) (add : Bool)
    (m : task_map) :
    parse_ini trim ini add m =
      some (ini_walk trim ini.filename add none (read_ini trim ini.content) 0 m) := by
  unfold parse_ini
  simp only []
  rw [parse_ini_loop_walk trim ini.filename _ add _ 0 m (by omega)]
  rfl

/-! ### Lemmas on strings and lines -/

theorem find_none_of_not_mem (s : std_string) (c : Char) (h : c ∉ s) : find s c = none := by
  induction s with
  | nil => rfl
  | cons x rest ih =>
    have hx : ¬ x = c := fun e => h (by simp [e])
    have hr : c ∉ rest := fun e => h (List.mem_cons_of_mem x e)
    simp [find, hx, ih hr]

theorem find_append_of_not_mem (a b : std_string) (c : Char) (h : c ∉ a) :
    find (a ++ c :: b) c = some a.length := by
  induction a with
  | nil => simp [find]
  | cons x rest ih =>
    have hx : ¬ x = c := fun e => h (by simp [e])
    have hr : c ∉ rest := fun e => h (List.mem_cons_of_mem x e)
    simp [find, hx, ih hr]

theorem header_line_head (name : std_string) : (header_line name).head? = some '[' := rfl

theorem header_line_ends (name : std_string) : ends_with (header_line name) [']'] = true := by
  unfold ends_with header_line
  rw [List.isSuffixOf_iff_suffix]
  exact ⟨'[' :: name, by simp⟩

theorem header_line_inside (name : std_string) :
    substr (header_line name) 1 ((header_line name).length - 2) = name := by
  simp [substr, header_line]

theorem header_global (name : std_string) (h : '/' ∉ name) :
    header (header_line name) = ([], name) := by
  unfold header
  simp only [header_line_inside, find_none_of_not_mem name '/' h]

theorem header_task (task sec : std_string) (h : '/' ∉ task) :
    header (header_line (task ++ '/' :: sec)) = (task, sec) := by
  unfold header
  simp only [header_line_inside, find_append_of_not_mem task sec '/' h]
  simp [substr]

theorem body_line_head (key value : std_string) (h : key ≠ []) :
    (body_line key value).head? = key.head? := by
  cases key with
  | nil => exact absurd rfl h
  | cons c rest => rfl

theorem body_line_find (key value : std_string) (h : '=' ∉ key) :
    find (body_line key value) '=' = some key.length :=
  find_append_of_not_mem key value '=' h

theorem body_line_key (key value : std_string) :
    substr (body_line key value) 0 key.length = key := by
  simp [substr, body_line]

theorem body_line_value (key value : std_string) :
    (body_line key value).drop (key.length + 1) = value := by
  simp [body_line]

theorem read_ini_of_kept (trim : std_string → std_string) (lines : List std_string)
    (h : ∀ l ∈ lines, kept trim l) : read_ini trim lines = lines := by
  induction lines with
  | nil => rfl
  | cons l rest ih =>
    obtain ⟨h1, h2, h3, h4⟩ := h l (List.mem_cons_self l rest)
    have hr := ih (fun x hx => h x (List.mem_cons_of_mem l hx))
    simp [read_ini, h1, h2, h3, h4, hr]

theorem read_ini_append (trim : std_string → std_string) (a b : List std_string) :
    read_ini trim (a ++ b) = read_ini trim a ++ read_ini trim b := by
  induction a with
  | nil => rfl
  | cons l rest ih =>
    by_cases h : trim l = [] ∨ (trim l).head? = some '#' ∨ (trim l).head? = some ';'
    · simp only [List.cons_append, read_ini, h, if_true]
      exact ih
    · simp only [List.cons_append, read_ini, h, if_false]
      exact congrArg (fun t => trim l :: t) ih

/-- A one-candidate `get_for_task` returns what the task layer holds. -/
theorem get_for_task_single_of_stored (m : task_map) (T sec key v : std_string)
    (h : stored m T sec key = some v) : get_for_task m [T] sec key = .ok v := by
  unfold stored at h
  unfold get_for_task find_task
  cases h1 : map_find m T with
  | none => simp [h1] at h
  | some layer =>
    simp only [h1] at h
    cases h2 : map_find layer sec with
    | none => simp [h2] at h
    | some kv =>
      simp only [h2] at h
      simp [h2, h]

/-- The single pass over a body line that is well formed: the store operation
decides. -/
theorem ini_walk_body_line (trim : std_string → std_string) (ini : std_string) (add : Bool)
    (task sec key value : std_string) (rest : List std_string) (i : Nat) (m : task_map)
    (hk : key ≠ []) (hhead : key.head? ≠ some '[') (heq : '=' ∉ key)
    (htk : trim key = key) (htv : trim value = value) :
    ini_walk trim ini add (some (task, sec)) (body_line key value :: rest) i m =
      match (store_line task sec key value add m).bail with
      | some b => ⟨some b, (store_line task sec key value add m).map_⟩
      | none => ini_walk trim ini add (some (task, sec)) rest (i + 1)
          (store_line task sec key value add m).map_ := by
  have h1 : (body_line key value).head? ≠ some '[' := by
    rw [body_line_head key value hk]
    exact hhead
  simp only [ini_walk, h1, if_false, body_line_find key value heq, body_line_key,
    body_line_value, htk, htv, hk]

/-- The single pass over a header line. -/
theorem ini_walk_header_line (trim : std_string → std_string) (ini : std_string) (add : Bool)
    (cur : Option (std_string × std_string)) (name : std_string) (rest : List std_string)
    (i : Nat) (m : task_map) :
    ini_walk trim ini add cur (header_line name :: rest) i m =
      ini_walk trim ini add (some (header (header_line name))) rest (i + 1) m := by
  simp only [ini_walk, header_line_head, header_line_ends, if_true]

/-! ### The configuration store: `get_global`, `set_global`, `add_global`,
`get_for_task`, `set_for_task` -/

/-- C1: in every store, `add_global(section, key, value)` returns, and a
following `get_global(section, key)` returns exactly `value`, whether or not
the global layer, the section or the key existed before. -/
theorem C1_add_global_then_get_global (m : task_map) (sec key value : std_string) :
    (add_global m sec key value).bail = none ∧
      get_global (add_global m sec key value).map_ sec key = .ok value := by
  refine ⟨rfl, ?_⟩
  rw [get_global_eq_stored]
  simp [add_global, stored_assign]

/-- C2: in every store, `set_global(section, key, value)` bails out if and only
if the global layer has no such section or that section has no such key; when
it bails out the store is the one it was called on, and when it returns a
following `get_global(section, key)` returns `value`. -/
theorem C2_set_global_requires_existing_key (m : task_map) (sec key value : std_string) :
    ((set_global m sec key value).bail ≠ none ↔
        (global_section m sec = none ∨
          ∃ kv, global_section m sec = some kv ∧ map_find kv key = none)) ∧
      ((set_global m sec key value).bail ≠ none → (set_global m sec key value).map_ = m) ∧
      ((set_global m sec key value).bail = none →
        get_global (set_global m sec key value).map_ sec key = .ok value) := by
  have hst : stored m [] sec key = none ↔
      (global_section m sec = none ∨
        ∃ kv, global_section m sec = some kv ∧ map_find kv key = none) := by
    unfold stored global_section
    cases h1 : map_find m [] with
    | none => simp
    | some gl =>
      cases h2 : map_find gl sec with
      | none => simp [h2]
      | some kv => simp [h2]
  rcases set_global_map_cases m sec key value with ⟨h1, ⟨g, hg⟩, h3⟩ | ⟨h1, h2, h3⟩
  · refine ⟨?_, ?_, ?_⟩
    · constructor
      · intro hb
        exact absurd h1 hb
      · intro habs
        rw [← hst, hg] at habs
        cases habs
    · intro hb
      exact absurd h1 hb
    · intro _
      rw [h3, get_global_eq_stored]
      simp [stored_assign]
  · refine ⟨?_, ?_, ?_⟩
    · constructor
      · intro _
        exact hst.1 h2
      · intro _
        exact h1
    · intro _
      exact h3
    · intro hb
      exact absurd hb h1

/-- C3: in every store whose global layer holds `G` under `(section, key)`: if
task `T` holds no value under `(section, key)` then
`get_for_task([T], section, key)` returns `G`; and for every `V`,
`set_for_task(T, section, key, V)` returns and `get_for_task([T], section, key)`
then returns `V`, whatever else the store contains. -/
theorem C3_get_for_task_single_candidate (m : task_map) (T sec key G : std_string)
    (hG : get_global m sec key = .ok G) :
    (stored m T sec key = none → get_for_task m [T] sec key = .ok G) ∧
      (∀ V, (set_for_task m T sec key V).bail = none ∧
        get_for_task (set_for_task m T sec key V).map_ [T] sec key = .ok V) := by
  constructor
  · intro hT
    unfold stored at hT
    unfold get_for_task find_task
    cases h1 : map_find m T with
    | none => simpa [find_task] using hG
    | some layer =>
      simp only [h1] at hT
      cases h2 : map_find layer sec with
      | none => simpa [h2] using hG
      | some kv =>
        simp only [h2] at hT
        simpa [h2, hT] using hG
  · intro V
    have hs : set_for_task m T sec key V = ⟨none, assign m T sec key V⟩ := by
      unfold set_for_task
      rw [hG]
    rw [hs]
    refine ⟨rfl, ?_⟩
    have hst : stored (assign m T sec key V) T sec key = some V := by
      simp [stored_assign]
    unfold stored at hst
    unfold get_for_task find_task
    cases h1 : map_find (assign m T sec key V) T with
    | none => simp [h1] at hst
    | some layer =>
      simp only [h1] at hst
      cases h2 : map_find layer sec with
      | none => simp [h2] at hst
      | some kv =>
        simp only [h2] at hst
        simp [h2, hst]

/-- Witness of C3: the store holding only the global `paths/foo = /a/b`, and
the task `t`. -/
theorem C3_get_for_task_single_candidate_witness :
    (stored one_key_store "t".toList "paths".toList "foo".toList = none →
        get_for_task one_key_store ["t".toList] "paths".toList "foo".toList
          = .ok "/a/b".toList) ∧
      (∀ V, (set_for_task one_key_store "t".toList "paths".toList "foo".toList V).bail = none ∧
        get_for_task
          (set_for_task one_key_store "t".toList "paths".toList "foo".toList V).map_
          ["t".toList] "paths".toList "foo".toList = .ok V) :=
  C3_get_for_task_single_candidate one_key_store "t".toList "paths".toList "foo".toList
    "/a/b".toList (by decide)

/-- C4, as stated, fails: in `two_task_store` the candidate `A` has a layer
without the section `paths`, the candidate `B` holds `paths/foo = /c/d`, and
`get_for_task([A, B], paths, foo)` returns the global `/a/b`, not `/c/d`. -/
theorem C4_first_candidate_with_section_counterexample :
    reachable two_task_store ∧
      (∃ layer, map_find two_task_store "A".toList = some layer ∧
        map_find layer "paths".toList = none) ∧
      stored two_task_store "B".toList "paths".toList "foo".toList = some "/c/d".toList ∧
      get_for_task two_task_store ["A".toList, "B".toList] "paths".toList "foo".toList
        = .ok "/a/b".toList ∧
      get_for_task two_task_store ["A".toList, "B".toList] "paths".toList "foo".toList
        ≠ .ok "/c/d".toList := by
  refine ⟨?_, ⟨[("options".toList, [("x".toList, "2".toList)])], by decide, by decide⟩,
    by decide, by decide, by decide⟩
  exact reachable.set_for_task _ _ _ _ _
    (reachable.set_for_task _ _ _ _ _
      (reachable.add_global _ _ _ _ (reachable.add_global _ _ _ _ reachable.init)))

/-- C4, amended: `get_for_task` takes its answer from the first candidate of
the list that has a task layer at all: when the candidates before `t` have no
layer and `t` has the layer `layer`, the result is the value `layer` holds
under `(section, key)` and the result of `get_global` when `layer` lacks the
section or the key; when no candidate has a layer the result is that of
`get_global`. -/
theorem C4_get_for_task_first_candidate_with_layer (m : task_map) (sec key : std_string) :
    (∀ (pre post : List std_string) (t : std_string) (layer : section_map),
        (∀ n ∈ pre, map_find m n = none) → map_find m t = some layer →
        get_for_task m (pre ++ t :: post) sec key =
          match map_find layer sec with
          | none => get_global m sec key
          | some kv =>
            match map_find kv key with
            | none => get_global m sec key
            | some v => .ok v) ∧
      (∀ names : List std_string, (∀ n ∈ names, map_find m n = none) →
        get_for_task m names sec key = get_global m sec key) := by
  constructor
  · intro pre post t layer hpre ht
    exact get_for_task_of_find_task m _ sec key layer (find_task_append m pre post t layer hpre ht)
  · intro names hn
    exact get_for_task_of_find_task_none m names sec key (find_task_none m names hn)

/-- C5, as stated, fails: `one_key_store` is built by `add_global` alone and
`get_for_task([t], paths, bar)` bails out there, the key `bar` being in no
layer. -/
theorem C5_get_for_task_never_fails_counterexample :
    reachable one_key_store ∧
      get_for_task one_key_store ["t".toList] "paths".toList "bar".toList
        = .error (.no_key "bar".toList "paths".toList) := by
  refine ⟨reachable.add_global _ _ _ _ reachable.init, by decide⟩

/-- In a store whose task keys are global keys, `get_for_task` ends with the
bail-out of `get_global` whenever `get_global` bails out. -/
theorem get_for_task_error_of_global_error (m : task_map) (hinv : schema_subset m)
    (names : List std_string) (sec key : std_string) (e : bailed)
    (he : get_global m sec key = .error e) : get_for_task m names sec key = .error e := by
  cases hf : find_task m names with
  | none => rw [get_for_task_of_find_task_none m names sec key hf, he]
  | some layer =>
    rw [get_for_task_of_find_task m names sec key layer hf]
    obtain ⟨t, ht⟩ := find_task_mem m names layer hf
    cases h2 : map_find layer sec with
    | none =>
      simp only []
      exact he
    | some kv =>
      simp only []
      cases h3 : map_find kv key with
      | none =>
        simp only []
        exact he
      | some v =>
        have hst : stored m t sec key = some v := by
          simp [stored, ht, h2, h3]
        obtain ⟨g, hg⟩ := hinv t sec key v hst
        have := (get_global_eq_stored m sec key g).2 hg
        rw [he] at this
        cases this

/-- C5, amended: in every store built by `add_global`, `set_global` and
`set_for_task`, and for every candidate list, `get_for_task` returns a value
if and only if the global layer holds the requested `(section, key)`; and when
`get_global(section, key)` bails out, `get_for_task` ends with that same
bail-out. -/
theorem C5_get_for_task_returns_iff_global_key (m : task_map) (h : reachable m)
    (names : List std_string) (sec key : std_string) :
    ((∃ v, get_for_task m names sec key = .ok v) ↔ (∃ g, get_global m sec key = .ok g)) ∧
      (∀ e, get_global m sec key = .error e → get_for_task m names sec key = .error e) := by
  have hinv := reachable_schema_subset m h
  refine ⟨?_, fun e he => get_for_task_error_of_global_error m hinv names sec key e he⟩
  cases hf : find_task m names with
  | none => rw [get_for_task_of_find_task_none m names sec key hf]
  | some layer =>
    rw [get_for_task_of_find_task m names sec key layer hf]
    obtain ⟨t, ht⟩ := find_task_mem m names layer hf
    cases h2 : map_find layer sec with
    | none => simp
    | some kv =>
      cases h3 : map_find kv key with
      | none => simp [h3]
      | some v =>
        have hst : stored m t sec key = some v := by
          simp [stored, ht, h2, h3]
        obtain ⟨g, hg⟩ := hinv t sec key v hst
        constructor
        · intro _
          exact ⟨g, (get_global_eq_stored m sec key g).2 hg⟩
        · intro _
          exact ⟨v, by simp [h3]⟩

/-- Witness of C5: `two_task_store` and the candidates `[A, B]`: for the key
`paths/foo`, which the global layer holds, both sides of the equivalence hold;
for the key `paths/bar`, which it lacks, `get_for_task` ends with the
missing-key bail-out of `get_global`. -/
theorem C5_get_for_task_returns_iff_global_key_witness :
    reachable two_task_store ∧
      ((∃ v, get_for_task two_task_store ["A".toList, "B".toList] "paths".toList "foo".toList
          = .ok v) ↔
        (∃ g, get_global two_task_store "paths".toList "foo".toList = .ok g)) ∧
      (∀ e, get_global two_task_store "paths".toList "foo".toList = .error e →
        get_for_task two_task_store ["A".toList, "B".toList] "paths".toList "foo".toList
          = .error e) ∧
      get_global two_task_store "paths".toList "bar".toList
        = .error (.no_key "bar".toList "paths".toList) ∧
      get_for_task two_task_store ["A".toList, "B".toList] "paths".toList "bar".toList
        = .error (.no_key "bar".toList "paths".toList) :=
  have hr : reachable two_task_store :=
    reachable.set_for_task _ _ _ _ _
      (reachable.set_for_task _ _ _ _ _
        (reachable.add_global _ _ _ _ (reachable.add_global _ _ _ _ reachable.init)))
  ⟨hr,
    (C5_get_for_task_returns_iff_global_key two_task_store hr
      ["A".toList, "B".toList] "paths".toList "foo".toList).1,
    (C5_get_for_task_returns_iff_global_key two_task_store hr
      ["A".toList, "B".toList] "paths".toList "foo".toList).2,
    by decide,
    (C5_get_for_task_returns_iff_global_key two_task_store hr
      ["A".toList, "B".toList] "paths".toList "bar".toList).2
      (.no_key "bar".toList "paths".toList) (by decide)⟩

/-- C6, as stated, fails: with the global layer holding only `paths/foo`,
`set_for_task(t, options, bar, v)` bails out on the missing section and stores
nothing. -/
theorem C6_set_for_task_unchecked_counterexample :
    (set_for_task one_key_store "t".toList "options".toList "bar".toList "v".toList).bail
        = some (.no_section "options".toList) ∧
      (set_for_task one_key_store "t".toList "options".toList "bar".toList "v".toList).map_
        = one_key_store ∧
      stored (set_for_task one_key_store "t".toList "options".toList "bar".toList
        "v".toList).map_ "t".toList "options".toList "bar".toList = none := by
  refine ⟨by decide, by decide, by decide⟩

/-- C6, amended: `set_for_task(task, section, key, value)` first reads the
global `(section, key)`: it returns if and only if the global layer holds that
key, and then the task layer holds `value` under `(section, key)`; otherwise
it bails out and the store is the one it was called on; the bail-out is the one
`get_global(section, key)` ends with. -/
theorem C6_set_for_task_checks_global_key (m : task_map) (task sec key value : std_string) :
    ((set_for_task m task sec key value).bail = none ↔ ∃ g, get_global m sec key = .ok g) ∧
      ((set_for_task m task sec key value).bail = none →
        stored (set_for_task m task sec key value).map_ task sec key = some value) ∧
      ((set_for_task m task sec key value).bail ≠ none →
        (set_for_task m task sec key value).map_ = m) ∧
      (∀ e, get_global m sec key = .error e →
        set_for_task m task sec key value = ⟨some e, m⟩) := by
  have herr : ∀ e, get_global m sec key = .error e →
      set_for_task m task sec key value = ⟨some e, m⟩ := by
    intro e he
    unfold set_for_task
    rw [he]
  rcases set_for_task_map_cases m task sec key value with ⟨h1, hg, h3⟩ | ⟨h1, h2, h3⟩
  · refine ⟨?_, ?_, ?_, herr⟩
    · constructor
      · intro _
        exact (get_global_ok_iff m sec key).2 hg
      · intro _
        exact h1
    · intro _
      rw [h3]
      simp [stored_assign]
    · intro hb
      exact absurd h1 hb
  · refine ⟨?_, ?_, ?_, herr⟩
    · constructor
      · intro hb
        exact absurd hb h1
      · intro hg
        obtain ⟨g, hg⟩ := (get_global_ok_iff m sec key).1 hg
        rw [h2] at hg
        cases hg
    · intro hb
      exact absurd hb h1
    · intro _
      exact h3

/-- Witness of C6: in the store holding only the global `paths/foo`,
`set_for_task(t, paths, bar, v)` ends with the missing-key bail-out of
`get_global(paths, bar)` and leaves the store as it was, and
`set_for_task(t, paths, foo, v)` returns and stores `v` in the layer of `t`. -/
theorem C6_set_for_task_checks_global_key_witness :
    set_for_task one_key_store "t".toList "paths".toList "bar".toList "v".toList
        = ⟨some (.no_key "bar".toList "paths".toList), one_key_store⟩ ∧
      (set_for_task one_key_store "t".toList "paths".toList "bar".toList "v".toList).map_
        = one_key_store ∧
      (set_for_task one_key_store "t".toList "paths".toList "foo".toList "v".toList).bail
        = none ∧
      stored (set_for_task one_key_store "t".toList "paths".toList "foo".toList
        "v".toList).map_ "t".toList "paths".toList "foo".toList = some "v".toList :=
  ⟨(C6_set_for_task_checks_global_key one_key_store "t".toList "paths".toList "bar".toList
      "v".toList).2.2.2 (.no_key "bar".toList "paths".toList) (by decide),
    (C6_set_for_task_checks_global_key one_key_store "t".toList "paths".toList "bar".toList
      "v".toList).2.2.1 (by decide),
    (C6_set_for_task_checks_global_key one_key_store "t".toList "paths".toList "foo".toList
      "v".toList).1.2 ⟨"/a/b".toList, by decide⟩,
    (C6_set_for_task_checks_global_key one_key_store "t".toList "paths".toList "foo".toList
      "v".toList).2.1 (by decide)⟩

/-! ### Ingestion with add semantics under global headers -/

theorem cur_after_body (cur : Option (std_string × std_string)) (body : List std_string)
    (h : ∀ l ∈ body, l.head? ≠ some '[') : cur_after cur body = cur := by
  induction body with
  | nil => rfl
  | cons l rest ih =>
    have hl : l.head? ≠ some '[' := h l (List.mem_cons_self l rest)
    simp only [cur_after, hl, if_false]
    exact ih (fun x hx => h x (List.mem_cons_of_mem l hx))

theorem cur_after_header (pre body : List std_string) (hdr : std_string)
    (hb : hdr.head? = some '[') (h : ∀ l ∈ body, l.head? ≠ some '[') :
    ∀ cur, cur_after cur (pre ++ hdr :: body) = some (header hdr) := by
  induction pre with
  | nil =>
    intro cur
    simp only [List.nil_append, cur_after, hb, if_true]
    exact cur_after_body _ body h
  | cons l rest ih =>
    intro cur
    by_cases hl : l.head? = some '['
    · simp only [List.cons_append, cur_after, hl, if_true]
      exact ih _
    · simp only [List.cons_append, cur_after, hl, if_false]
      exact ih _

theorem ini_walk_append (trim : std_string → std_string) (f : std_string) (add : Bool)
    (a b : List std_string) :
    ∀ (cur : Option (std_string × std_string)) (i : Nat) (m : task_map),
      (ini_walk trim f add cur a i m).bail = none →
      ini_walk trim f add cur (a ++ b) i m =
        ini_walk trim f add (cur_after cur a) b (i + a.length)
          (ini_walk trim f add cur a i m).map_ := by
  induction a with
  | nil =>
    intro cur i m _
    simp [ini_walk, cur_after]
  | cons l rest ih =>
    intro cur i m h
    have harith : i + 1 + rest.length = i + (l :: rest).length := by
      simp only [List.length_cons]
      omega
    by_cases hb : l.head? = some '['
    · by_cases he : ends_with l [']'] = true
      · simp only [ini_walk, hb, he, if_true] at h
        simp only [List.cons_append, ini_walk, hb, he, if_true, cur_after]
        rw [← harith]
        exact ih _ _ _ h
      · simp [ini_walk, hb, he] at h
    · cases cur with
      | none => simp [ini_walk, hb] at h
      | some ts =>
        cases hfind : find l '=' with
        | none => simp [ini_walk, hb, hfind] at h
        | some sep =>
          by_cases hk : trim (substr l 0 sep) = []
          · simp [ini_walk, hb, hfind, hk] at h
          · cases hbail : (store_line ts.1 ts.2 (trim (substr l 0 sep))
                (trim (l.drop (sep + 1))) add m).bail with
            | some e => simp [ini_walk, hb, hfind, hk, hbail] at h
            | none =>
              simp only [ini_walk, hb, hfind, hk, hbail, if_false] at h
              simp only [List.cons_append, ini_walk, hb, hfind, hk, hbail, if_false, cur_after]
              rw [← harith]
              exact ih _ _ _ h

theorem set_global_bail (m : task_map) (s k v : std_string) (h : stored m [] s k = none) :
    ∃ b, get_global m s k = .error b ∧ set_global m s k v = ⟨some b, m⟩ ∧
      (map_find m [] ≠ none → b = .no_section s ∨ b = .no_key k s) := by
  unfold stored at h
  unfold get_global set_global
  cases h1 : map_find m [] with
  | none => exact ⟨.assertion, rfl, rfl, fun hn => absurd rfl hn⟩
  | some gl =>
    simp only [h1] at h
    cases h2 : map_find gl s with
    | none => exact ⟨.no_section s, by simp [h2], by simp [h2], fun _ => Or.inl rfl⟩
    | some kv =>
      simp only [h2] at h
      exact ⟨.no_key k s, by simp [h2, h], by simp [h2, h], fun _ => Or.inr rfl⟩

theorem get_global_set_global (m : task_map) (s k v g : std_string)
    (h : get_global m s k = .ok g) :
    (set_global m s k v).bail = none ∧ get_global (set_global m s k v).map_ s k = .ok v := by
  rw [set_global_eq_assign m s k v g ((get_global_eq_stored m s k g).1 h)]
  refine ⟨rfl, ?_⟩
  rw [get_global_eq_stored]
  simp [stored_assign]

/-! ### Ini ingestion: `read_ini`, `parse_section`, `parse_ini` -/

/-- The store after `[S]`, `K=V1`, `[T/S]`, `K=V2` have been walked. -/
theorem ini_walk_four_lines (trim : std_string → std_string) (f : std_string) (add2 : Bool)
    (m : task_map) (S K T V1 V2 : std_string)
    (hS : '/' ∉ S) (hT : T ≠ []) (hT' : '/' ∉ T)
    (hK : K ≠ []) (hKeq : '=' ∉ K) (hKhead : K.head? ≠ some '[')
    (htrim : trim K = K ∧ trim V1 = V1 ∧ trim V2 = V2) :
    ini_walk trim f true none [header_line S, body_line K V1] 0 m =
        ⟨none, assign m [] S K V1⟩ ∧
      (∀ (cur : Option (std_string × std_string)) (i : Nat),
        ini_walk trim f add2 cur [header_line (T ++ '/' :: S), body_line K V2] i
            (assign m [] S K V1) =
          ⟨none, assign (assign m [] S K V1) T S K V2⟩) ∧
      ini_walk trim f true none (four_lines S K T V1 V2) 0 m =
        ⟨none, assign (assign m [] S K V1) T S K V2⟩ ∧
      get_global (assign (assign m [] S K V1) T S K V2) S K = .ok V1 ∧
      get_for_task (assign (assign m [] S K V1) T S K V2) [T] S K = .ok V2 := by
  obtain ⟨htK, htV1, htV2⟩ := htrim
  have hg1 : get_global (assign m [] S K V1) S K = .ok V1 := by
    rw [get_global_eq_stored]
    simp [stored_assign]
  have hset : ∀ b : Bool, store_line T S K V2 b (assign m [] S K V1) =
      ⟨none, assign (assign m [] S K V1) T S K V2⟩ := by
    intro b
    simp only [store_line, hT, if_false, set_for_task, hg1]
  have hlast : ∀ (b : Bool) (cur : Option (std_string × std_string)) (i : Nat),
      ini_walk trim f b cur [header_line (T ++ '/' :: S), body_line K V2] i
          (assign m [] S K V1) =
        ⟨none, assign (assign m [] S K V1) T S K V2⟩ := by
    intro b cur i
    rw [ini_walk_header_line, header_task T S hT',
      ini_walk_body_line trim f b T S K V2 [] (i + 1) _ hK hKhead hKeq htK htV2, hset]
    simp [ini_walk]
  refine ⟨?_, hlast add2, ?_, ?_, ?_⟩
  · rw [ini_walk_header_line, header_global S hS,
      ini_walk_body_line trim f true [] S K V1 [] 1 m hK hKhead hKeq htK htV1]
    simp [store_line, add_global, ini_walk]
  · unfold four_lines
    rw [ini_walk_header_line, header_global S hS,
      ini_walk_body_line trim f true [] S K V1 _ 1 m hK hKhead hKeq htK htV1]
    simp only [store_line, add_global, if_true]
    exact hlast true _ _
  · rw [get_global_eq_stored, stored_assign]
    have hne : ¬ (T = [] ∧ S = S ∧ K = K) := fun e => hT e.1
    rw [if_neg hne]
    simp [stored_assign]
  · apply get_for_task_single_of_stored
    simp [stored_assign]

/-- C7, as stated, fails: the empty string is the task name of the global
layer, and with `T` empty the header `[T/S]` is `[/paths]`, which opens the
global section `paths` again; the second `foo` line overwrites the first and
`get_global(paths, foo)` returns `/c/d`, not `/a/b`. -/
theorem C7_ingest_every_name_counterexample :
    ∃ m', parse_ini trim_copy
        ⟨"mob.ini".toList,
          four_lines "paths".toList "foo".toList [] "/a/b".toList "/c/d".toList⟩ true []
          = some ⟨none, m'⟩ ∧
      get_global m' "paths".toList "foo".toList = .ok "/c/d".toList ∧
      get_global m' "paths".toList "foo".toList ≠ .ok "/a/b".toList := by
  refine ⟨[([], [("paths".toList, [("foo".toList, "/c/d".toList)])])], ?_, ?_, ?_⟩
  · decide
  · decide
  · decide

/-- C7, amended: for a section `S` without `/`, a task name `T` that is not
empty and has no `/`, a key `K` that is not empty, has no `=` and does not start
with `[`, and `K`, `V1`, `V2` and the four lines such that `read_ini` keeps them
as they are: ingesting `[S]`, `K=V1`, `[T/S]`, `K=V2` with add semantics, as one
file or as two files (the second with either semantics), into any store
returns, and then `get_global(S, K)` is `V1` and `get_for_task([T], S, K)` is
`V2`. -/
theorem C7_ingest_global_then_task (trim : std_string → std_string) (f f2 : std_string)
    (add2 : Bool) (m : task_map) (S K T V1 V2 : std_string)
    (hS : '/' ∉ S) (hT : T ≠ []) (hT' : '/' ∉ T)
    (hK : K ≠ []) (hKeq : '=' ∉ K) (hKhead : K.head? ≠ some '[')
    (htrim : trim K = K ∧ trim V1 = V1 ∧ trim V2 = V2)
    (hkept : ∀ l ∈ four_lines S K T V1 V2, kept trim l) :
    (∃ m', parse_ini trim ⟨f, four_lines S K T V1 V2⟩ true m = some ⟨none, m'⟩ ∧
        get_global m' S K = .ok V1 ∧ get_for_task m' [T] S K = .ok V2) ∧
      (∃ m1 m2, parse_ini trim ⟨f, [header_line S, body_line K V1]⟩ true m = some ⟨none, m1⟩ ∧
        parse_ini trim ⟨f2, [header_line (T ++ '/' :: S), body_line K V2]⟩ add2 m1
          = some ⟨none, m2⟩ ∧
        get_global m2 S K = .ok V1 ∧ get_for_task m2 [T] S K = .ok V2) := by
  obtain ⟨h1, h2, h3, h4, h5⟩ :=
    ini_walk_four_lines trim f add2 m S K T V1 V2 hS hT hT' hK hKeq hKhead htrim
  have h2' : ∀ (cur : Option (std_string × std_string)) (i : Nat),
      ini_walk trim f2 add2 cur [header_line (T ++ '/' :: S), body_line K V2] i
          (assign m [] S K V1) =
        ⟨none, assign (assign m [] S K V1) T S K V2⟩ :=
    (ini_walk_four_lines trim f2 add2 m S K T V1 V2 hS hT hT' hK hKeq hKhead htrim).2.1
  have hk1 : ∀ l ∈ [header_line S, body_line K V1], kept trim l := by
    intro l hl
    apply hkept
    simp only [four_lines, List.mem_cons] at hl ⊢
    tauto
  have hk2 : ∀ l ∈ [header_line (T ++ '/' :: S), body_line K V2], kept trim l := by
    intro l hl
    apply hkept
    simp only [four_lines, List.mem_cons] at hl ⊢
    tauto
  constructor
  · refine ⟨assign (assign m [] S K V1) T S K V2, ?_, h4, h5⟩
    rw [parse_ini_eq_walk]
    simp only [read_ini_of_kept trim _ hkept, h3]
  · refine ⟨assign m [] S K V1, assign (assign m [] S K V1) T S K V2, ?_, ?_, h4, h5⟩
    · rw [parse_ini_eq_walk]
      simp only [read_ini_of_kept trim _ hk1, h1]
    · rw [parse_ini_eq_walk]
      simp only [read_ini_of_kept trim _ hk2, h2' none 0]

/-- Witness of C7: the instance `S = paths`, `K = foo`, `T = t`, `V1 = /a/b`,
`V2 = /c/d`, with `trim_copy` as the trimming function. -/
theorem C7_ingest_global_then_task_witness :
    (∃ m', parse_ini trim_copy
          ⟨"mob.ini".toList,
            four_lines "paths".toList "foo".toList "t".toList "/a/b".toList "/c/d".toList⟩
          true [] = some ⟨none, m'⟩ ∧
        get_global m' "paths".toList "foo".toList = .ok "/a/b".toList ∧
        get_for_task m' ["t".toList] "paths".toList "foo".toList = .ok "/c/d".toList) ∧
      (∃ m1 m2, parse_ini trim_copy
          ⟨"mob.ini".toList, [header_line "paths".toList, body_line "foo".toList "/a/b".toList]⟩
          true [] = some ⟨none, m1⟩ ∧
        parse_ini trim_copy
          ⟨"other.ini".toList,
            [header_line ("t".toList ++ '/' :: "paths".toList),
              body_line "foo".toList "/c/d".toList]⟩
          false m1 = some ⟨none, m2⟩ ∧
        get_global m2 "paths".toList "foo".toList = .ok "/a/b".toList ∧
        get_for_task m2 ["t".toList] "paths".toList "foo".toList = .ok "/c/d".toList) :=
  C7_ingest_global_then_task trim_copy "mob.ini".toList "other.ini".toList false []
    "paths".toList "foo".toList "t".toList "/a/b".toList "/c/d".toList
    (by decide) (by decide) (by decide) (by decide) (by decide) (by decide) (by decide)
    (by decide)

/-- C8 on a failing input: in the file `# comment`, `[paths]`, `keyonly` the
malformed line is line 3, and ingestion bails out reporting line 2, the
position of the line among those `read_ini` kept. -/
theorem C8_reported_line_number_skips_comments :
    parse_ini trim_copy
        ⟨"mob.ini".toList, ["# comment".toList, "[paths]".toList, "keyonly".toList]⟩ true []
      = some ⟨some (.format "mob.ini".toList 2 "bad line 'keyonly'".toList), []⟩ := by
  decide

/-- C10: a file ingested with set semantics into any store `m`, where `before`
is the part of the file in front of a body line of a global section `sec`
(ingesting `before` alone returns and leaves the store `m1`), `at_line` is the
part that holds that line, and `key` and `value` are the trimmed sides of the
first `=` of the line: when the global layer of `m1` holds `(sec, key)`,
ingestion goes past the line and the store then is `m1` with `value` in place of
the old value; when the global layer lacks the section or the key, ingestion of
the file, whatever follows the line, bails out at the line with the error of
`get_global`, the store being `m1`, and this error names the missing section or
the missing key whenever the store has a global layer. -/
theorem C10_later_file_overrides_or_aborts (trim : std_string → std_string) (f : std_string)
    (m m1 : task_map) (before at_line after : List std_string)
    (pre body : List std_string) (hdr line sec : std_string) (sep : Nat)
    (hread : read_ini trim before = pre ++ hdr :: body)
    (hread1 : read_ini trim at_line = [line])
    (hhdr : is_header hdr = true) (hsec : header hdr = ([], sec))
    (hbody : ∀ l ∈ body, l.head? ≠ some '[')
    (hline : line.head? ≠ some '[') (hsep : find line '=' = some sep)
    (hkey : trim (substr line 0 sep) ≠ [])
    (hbefore : parse_ini trim ⟨f, before⟩ false m = some ⟨none, m1⟩) :
    ((∃ g, get_global m1 sec (trim (substr line 0 sep)) = .ok g) →
        parse_ini trim ⟨f, before ++ at_line⟩ false m =
            some ⟨none, (set_global m1 sec (trim (substr line 0 sep))
              (trim (line.drop (sep + 1)))).map_⟩ ∧
          get_global (set_global m1 sec (trim (substr line 0 sep))
              (trim (line.drop (sep + 1)))).map_ sec (trim (substr line 0 sep))
            = .ok (trim (line.drop (sep + 1)))) ∧
      (stored m1 [] sec (trim (substr line 0 sep)) = none →
        ∃ b, get_global m1 sec (trim (substr line 0 sep)) = .error b ∧
          parse_ini trim ⟨f, before ++ at_line ++ after⟩ false m = some ⟨some b, m1⟩ ∧
          (map_find m1 [] ≠ none →
            b = .no_section sec ∨ b = .no_key (trim (substr line 0 sep)) sec)) := by
  have hb : hdr.head? = some '[' := by
    apply (starts_with_bracket hdr).1
    simp only [is_header, Bool.and_eq_true] at hhdr
    exact hhdr.1
  rw [parse_ini_eq_walk] at hbefore
  simp only [hread, Option.some.injEq] at hbefore
  have hbail : (ini_walk trim f false none (pre ++ hdr :: body) 0 m).bail = none := by
    rw [hbefore]
  have happ : ∀ rest, ini_walk trim f false none ((pre ++ hdr :: body) ++ rest) 0 m =
      ini_walk trim f false (some ([], sec)) rest (0 + (pre ++ hdr :: body).length) m1 := by
    intro rest
    rw [ini_walk_append trim f false _ rest none 0 m hbail,
      cur_after_header pre body hdr hb hbody, hsec, hbefore]
  have hstore : store_line [] sec (trim (substr line 0 sep)) (trim (line.drop (sep + 1)))
      false m1 = set_global m1 sec (trim (substr line 0 sep)) (trim (line.drop (sep + 1))) := by
    simp [store_line]
  constructor
  · rintro ⟨g, hg⟩
    obtain ⟨hs1, hs2⟩ := get_global_set_global m1 sec (trim (substr line 0 sep))
      (trim (line.drop (sep + 1))) g hg
    refine ⟨?_, hs2⟩
    rw [parse_ini_eq_walk]
    simp only []
    rw [read_ini_append, hread, hread1, happ]
    simp only [ini_walk, hline, if_false, hsep, hkey, hstore, hs1]
  · intro hnone
    obtain ⟨b, hb1, hb2, hb3⟩ := set_global_bail m1 sec (trim (substr line 0 sep))
      (trim (line.drop (sep + 1))) hnone
    refine ⟨b, hb1, ?_, hb3⟩
    rw [parse_ini_eq_walk]
    simp only []
    rw [read_ini_append, read_ini_append, hread, hread1,
      List.append_assoc (pre ++ hdr :: body), happ]
    simp only [List.singleton_append, ini_walk, hline, if_false, hsep, hkey, hstore, hb2]

/-- Witness of C10: the store holding the global `paths/foo = /a/b`, a later
file whose line `foo = /x/y` under `[paths]` overrides it, and a later file
whose line `bar = 1` under `[paths]` names a key the global layer lacks. -/
theorem C10_later_file_overrides_or_aborts_witness :
    (parse_ini trim_copy
          ⟨"later.ini".toList, ["; overrides".toList, "[paths]".toList, "  foo = /x/y".toList]⟩
          false one_key_store
        = some ⟨none,
            (set_global one_key_store "paths".toList "foo".toList "/x/y".toList).map_⟩ ∧
      get_global (set_global one_key_store "paths".toList "foo".toList "/x/y".toList).map_
          "paths".toList "foo".toList = .ok "/x/y".toList) ∧
      (∃ b, get_global one_key_store "paths".toList "bar".toList = .error b ∧
        parse_ini trim_copy
            ⟨"later.ini".toList, ["[paths]".toList, "bar = 1".toList, "foo = /x/y".toList]⟩
            false one_key_store = some ⟨some b, one_key_store⟩ ∧
        (map_find one_key_store [] ≠ none →
          b = .no_section "paths".toList ∨ b = .no_key "bar".toList "paths".toList)) :=
  ⟨(C10_later_file_overrides_or_aborts trim_copy "later.ini".toList one_key_store one_key_store
      ["; overrides".toList, "[paths]".toList] ["  foo = /x/y".toList] []
      [] [] "[paths]".toList "foo = /x/y".toList "paths".toList 4
      (by decide) (by decide) (by decide) (by decide) (by decide) (by decide) (by decide)
      (by decide) (by decide)).1 ⟨"/a/b".toList, by decide⟩,
    (C10_later_file_overrides_or_aborts trim_copy "later.ini".toList one_key_store one_key_store
      ["[paths]".toList] ["bar = 1".toList] ["foo = /x/y".toList]
      [] [] "[paths]".toList "bar = 1".toList "paths".toList 4
      (by decide) (by decide) (by decide) (by decide) (by decide) (by decide) (by decide)
      (by decide) (by decide)).2 (by decide)⟩

/-! ### Global and task layers -/

theorem map_find_assign_other (m : task_map) (t s k v t' : std_string) (h : t ≠ t') :
    map_find (assign m t s k v) t' = map_find m t' := by
  unfold assign
  exact map_find_put_other m t t' _ h

theorem get_global_assign_task (m : task_map) (t s k v s' k' : std_string) (h : t ≠ []) :
    get_global (assign m t s k v) s' k' = get_global m s' k' := by
  unfold get_global
  rw [map_find_assign_other m t s k v [] h]

/-- C20: in every store, a `set_global(section, key, v)` that returns leaves
the layer of every task (every non-empty task name) as it was, so a task `T`
holding `V` under `(section, key)` still has `get_for_task([T], section, key)`
equal to `V`; and `set_for_task` with a non-empty task name leaves the result
of every `get_global` as it was. -/
theorem C20_global_and_task_layers_independent (m : task_map) (sec key v : std_string) :
    ((set_global m sec key v).bail = none →
        (∀ t, t ≠ [] → map_find (set_global m sec key v).map_ t = map_find m t) ∧
        (∀ T V, T ≠ [] → stored m T sec key = some V →
          get_for_task (set_global m sec key v).map_ [T] sec key = .ok V)) ∧
      (∀ task sec' key', task ≠ [] →
        get_global (set_for_task m task sec key v).map_ sec' key' = get_global m sec' key') := by
  constructor
  · intro hb
    rcases set_global_map_cases m sec key v with ⟨_, _, h3⟩ | ⟨h1, _, _⟩
    · rw [h3]
      refine ⟨fun t ht => map_find_assign_other m [] sec key v t (fun e => ht e.symm), ?_⟩
      intro T V hT hV
      apply get_for_task_single_of_stored
      rw [stored_assign]
      have hne : ¬ (([] : std_string) = T ∧ sec = sec ∧ key = key) := fun e => hT e.1.symm
      rw [if_neg hne]
      exact hV
    · exact absurd hb h1
  · intro task sec' key' ht
    rcases set_for_task_map_cases m task sec key v with ⟨_, _, h3⟩ | ⟨_, _, h3⟩
    · rw [h3]
      exact get_global_assign_task m task sec key v sec' key' ht
    · rw [h3]

/-! ### `parse_option` -/

theorem find_some (s : std_string) (c : Char) :
    ∀ i, find s c = some i →
      s = s.take i ++ c :: s.drop (i + 1) ∧ c ∉ s.take i ∧ i < s.length := by
  induction s with
  | nil =>
    intro i h
    simp [find] at h
  | cons x rest ih =>
    intro i h
    by_cases hx : x = c
    · simp only [find, hx, if_true, Option.some.injEq] at h
      subst h
      simp [hx]
    · simp only [find, hx, if_false, Option.map_eq_some'] at h
      obtain ⟨j, hj, hi⟩ := h
      subst hi
      obtain ⟨h1, h2, h3⟩ := ih j hj
      refine ⟨?_, ?_, ?_⟩
      · simp only [List.take_succ_cons, List.drop_succ_cons, List.cons_append]
        rw [← h1]
      · simp only [List.take_succ_cons, List.mem_cons, not_or]
        exact ⟨fun e => hx e.symm, h2⟩
      · simp only [List.length_cons]
        omega

theorem parse_option_of_positions (s : std_string) (slash j : Nat)
    (hlen : s.length < npos) (hs : find s '/' = some slash)
    (hr : find (s.drop (slash + 1)) '=' = some j) :
    find_from s '=' slash = some (slash + 1 + j) ∧
      parse_option s =
        .ok ⟨s.take slash, (s.drop (slash + 1)).take j, s.drop (slash + 1 + j + 1)⟩ ∧
      s.take slash ++ '/' :: ((s.drop (slash + 1)).take j ++ '=' :: s.drop (slash + 1 + j + 1))
        = s ∧
      '/' ∉ s.take slash ∧ '=' ∉ (s.drop (slash + 1)).take j := by
  obtain ⟨h1, h2, h3⟩ := find_some s '/' slash hs
  obtain ⟨g1, g2, g3⟩ := find_some (s.drop (slash + 1)) '=' j hr
  have hdrop : s.drop slash = '/' :: s.drop (slash + 1) := by
    have hl : (s.take slash).length = slash := by
      rw [List.length_take]
      omega
    conv_lhs => rw [h1]
    rw [List.drop_left' hl]
  have hff : find_from s '=' slash = some (slash + 1 + j) := by
    unfold find_from
    rw [hdrop]
    have hne : ¬ ('/' : Char) = '=' := by decide
    simp only [find, hne, if_false, hr, Option.map_some']
    congr 1
    omega
  have hjlen : j < s.length - (slash + 1) := by
    rw [List.length_drop] at g3
    exact g3
  have hn : npos = 2 ^ 64 - 1 := rfl
  have hp : (2 : Nat) ^ 64 = 18446744073709551616 := by norm_num
  refine ⟨hff, ?_, ?_, h2, g2⟩
  · unfold parse_option
    simp only [hs, hff, size_t_of]
    have hne : ¬ slash = npos := by omega
    have e1 : size_t_sub (size_t_sub (slash + 1 + j) slash) 1 = j := by
      unfold size_t_sub
      rw [hn, hp] at hlen
      rw [hp]
      omega
    have e2 : size_t_add (slash + 1 + j) 1 = slash + 1 + j + 1 := by
      unfold size_t_add
      rw [hn, hp] at hlen
      rw [hp]
      omega
    simp only [hne, if_false, e1, e2, substr, List.drop_zero]
  · have hdd : s.drop (slash + 1 + j + 1) = (s.drop (slash + 1)).drop (j + 1) := by
      rw [List.drop_drop]
      congr 1
    rw [hdd, ← g1, ← h1]

/-- C12 on a failing input: `paths/prefix` has a `/` and no `=` after it, and
`parse_option` returns instead of bailing out: the second test looks at `slash`
again, `equal` is `npos`, the key is the rest of the string and the value the
whole string. -/
theorem C12_parse_option_missing_equal_returns :
    parse_option "paths/prefix".toList
      = .ok ⟨"paths".toList, "prefix".toList, "paths/prefix".toList⟩ := by
  decide

/-- C13: for every string `s` (of a length a `size_t` holds) whose first `/` is
at `slash` and whose first `=` from there on is at `equal`, `parse_option(s)`
returns the text before `slash` as section, the text between `slash` and
`equal` as key and the text after `equal` as value; these give `s` back as
section + `/` + key + `=` + value, the section has no `/` and the key no `=`. -/
theorem C13_parse_option_splits_at_first_slash_and_equal (s : std_string) (slash equal : Nat)
    (hlen : s.length < npos) (hs : find s '/' = some slash)
    (he : find_from s '=' slash = some equal) :
    parse_option s =
        .ok ⟨s.take slash, (s.drop (slash + 1)).take (equal - slash - 1), s.drop (equal + 1)⟩ ∧
      s.take slash ++ '/' ::
          ((s.drop (slash + 1)).take (equal - slash - 1) ++ '=' :: s.drop (equal + 1)) = s ∧
      '/' ∉ s.take slash ∧ '=' ∉ (s.drop (slash + 1)).take (equal - slash - 1) := by
  obtain ⟨h1, _, h3⟩ := find_some s '/' slash hs
  have hdrop : s.drop slash = '/' :: s.drop (slash + 1) := by
    have hl : (s.take slash).length = slash := by
      rw [List.length_take]
      omega
    conv_lhs => rw [h1]
    rw [List.drop_left' hl]
  have hr : ∃ j, find (s.drop (slash + 1)) '=' = some j ∧ equal = slash + 1 + j := by
    unfold find_from at he
    rw [hdrop] at he
    have hne : ¬ ('/' : Char) = '=' := by decide
    simp only [find, hne, if_false, Option.map_eq_some', Option.map_map] at he
    obtain ⟨k, hk, hkj⟩ := he
    refine ⟨k, hk, ?_⟩
    simp only [Function.comp_apply] at hkj
    omega
  obtain ⟨j, hj, hej⟩ := hr
  obtain ⟨_, p2, p3, p4, p5⟩ := parse_option_of_positions s slash j hlen hs hj
  have e1 : equal - slash - 1 = j := by omega
  have e2 : equal + 1 = slash + 1 + j + 1 := by omega
  rw [e1, e2]
  exact ⟨p2, p3, p4, p5⟩

/-- Witness of C13: `paths/prefix=/x=y/z`, with its first `/` at 5 and the
first `=` after it at 12. -/
theorem C13_parse_option_splits_at_first_slash_and_equal_witness :
    parse_option "paths/prefix=/x=y/z".toList =
        .ok ⟨"paths/prefix=/x=y/z".toList.take 5,
          ("paths/prefix=/x=y/z".toList.drop (5 + 1)).take (12 - 5 - 1),
          "paths/prefix=/x=y/z".toList.drop (12 + 1)⟩ ∧
      "paths/prefix=/x=y/z".toList.take 5 ++ '/' ::
          (("paths/prefix=/x=y/z".toList.drop (5 + 1)).take (12 - 5 - 1) ++
            '=' :: "paths/prefix=/x=y/z".toList.drop (12 + 1)) = "paths/prefix=/x=y/z".toList ∧
      '/' ∉ "paths/prefix=/x=y/z".toList.take 5 ∧
      '=' ∉ ("paths/prefix=/x=y/z".toList.drop (5 + 1)).take (12 - 5 - 1) :=
  C13_parse_option_splits_at_first_slash_and_equal "paths/prefix=/x=y/z".toList 5 12
    (by decide) (by decide) (by decide)

/-! ### `try_parts` -/

theorem suffix_path_zero (fs : filesystem) (base : std_string) (parts : List std_string) :
    suffix_path fs base parts 0 = parts.foldl fs.div base := rfl

theorem suffix_path_succ (fs : filesystem) (base part : std_string) (rest : List std_string)
    (i : Nat) : suffix_path fs base (part :: rest) (i + 1) = suffix_path fs base rest i := rfl

theorem range_succ_map_suffix_path (fs : filesystem) (base part : std_string)
    (rest : List std_string) (n : Nat) :
    (List.range (n + 1)).map (suffix_path fs base (part :: rest)) =
      suffix_path fs base (part :: rest) 0 :: (List.range n).map (suffix_path fs base rest) := by
  rw [List.range_succ_eq_map, List.map_cons, List.map_map]
  rfl

theorem try_parts_found (fs : filesystem) (base : std_string) (parts : List std_string) :
    ∀ i, i < parts.length → fs.exists_ (suffix_path fs base parts i) = true →
      (∀ j, j < i → fs.exists_ (suffix_path fs base parts j) = false) →
      try_parts fs base parts =
        ⟨true, suffix_path fs base parts i,
          (List.range (i + 1)).map (suffix_path fs base parts)⟩ := by
  induction parts with
  | nil =>
    intro i hi
    simp at hi
  | cons part rest ih =>
    intro i hi he hmin
    cases i with
    | zero =>
      rw [suffix_path_zero] at he
      simp only [try_parts, he, if_true]
      rfl
    | succ k =>
      have h0 : fs.exists_ ((part :: rest).foldl fs.div base) = false := hmin 0 (by omega)
      have hk : k < rest.length := by
        simp only [List.length_cons] at hi
        omega
      have hrest := ih k hk he (fun j hj => hmin (j + 1) (by omega))
      rw [range_succ_map_suffix_path]
      simp only [try_parts, h0, hrest, suffix_path_succ]
      rfl

theorem try_parts_not_found (fs : filesystem) (base : std_string) (parts : List std_string)
    (h : ∀ i, i < parts.length → fs.exists_ (suffix_path fs base parts i) = false) :
    try_parts fs base parts =
      ⟨false, base, (List.range parts.length).map (suffix_path fs base parts)⟩ := by
  induction parts with
  | nil => rfl
  | cons part rest ih =>
    have h0 : fs.exists_ ((part :: rest).foldl fs.div base) = false :=
      h 0 (by simp)
    have hrest := ih (fun i hi => h (i + 1) (by simp only [List.length_cons]; omega))
    rw [List.length_cons, range_succ_map_suffix_path]
    simp only [try_parts, h0, hrest]
    rfl

theorem try_parts_found_iff (fs : filesystem) (base : std_string) (parts : List std_string) :
    (try_parts fs base parts).found = true ↔
      ∃ i, i < parts.length ∧ fs.exists_ (suffix_path fs base parts i) = true := by
  induction parts with
  | nil => simp [try_parts]
  | cons part rest ih =>
    by_cases h0 : fs.exists_ ((part :: rest).foldl fs.div base) = true
    · simp only [try_parts, h0, if_true, true_iff]
      exact ⟨0, by simp, h0⟩
    · have hstep : (try_parts fs base (part :: rest)).found =
          (try_parts fs base rest).found := by
        simp only [try_parts, h0, if_false, Bool.false_eq_true]
      rw [hstep, ih]
      constructor
      · rintro ⟨i, hi, he⟩
        exact ⟨i + 1, by simp only [List.length_cons]; omega, he⟩
      · rintro ⟨i, hi, he⟩
        cases i with
        | zero => exact absurd he h0
        | succ k =>
          exact ⟨k, by simp only [List.length_cons] at hi; omega, he⟩

/-- C11: for every base path, part list and existence predicate: when
`base/Pi/.../Pn` exists and no `base/Pj/.../Pn` with `j < i` does, `try_parts`
returns true with the path set to `base/Pi/.../Pn`, having probed exactly the
suffix paths up to that one; it returns false exactly when no suffix path
exists, and then the path is as it was; with `[P1, P2, P3]`, `base/P1/P2/P3`
missing and `base/P2/P3` existing, the result is `base/P2/P3` and the probes
are `base/P1/P2/P3` and `base/P2/P3` only. -/
theorem C11_try_parts_first_existing_suffix (fs : filesystem) (base : std_string)
    (parts : List std_string) :
    (∀ i, i < parts.length → fs.exists_ (suffix_path fs base parts i) = true →
        (∀ j, j < i → fs.exists_ (suffix_path fs base parts j) = false) →
        try_parts fs base parts =
          ⟨true, suffix_path fs base parts i,
            (List.range (i + 1)).map (suffix_path fs base parts)⟩) ∧
      ((try_parts fs base parts).found = false ↔
        ∀ i, i < parts.length → fs.exists_ (suffix_path fs base parts i) = false) ∧
      ((try_parts fs base parts).found = false → (try_parts fs base parts).check = base) ∧
      (∀ P1 P2 P3 : std_string,
        fs.exists_ (fs.div (fs.div (fs.div base P1) P2) P3) = false →
        fs.exists_ (fs.div (fs.div base P2) P3) = true →
        try_parts fs base [P1, P2, P3] =
          ⟨true, fs.div (fs.div base P2) P3,
            [fs.div (fs.div (fs.div base P1) P2) P3, fs.div (fs.div base P2) P3]⟩) := by
  have hiff : (try_parts fs base parts).found = false ↔
      ∀ i, i < parts.length → fs.exists_ (suffix_path fs base parts i) = false := by
    constructor
    · intro hf i hi
      cases he : fs.exists_ (suffix_path fs base parts i) with
      | false => rfl
      | true =>
        have := (try_parts_found_iff fs base parts).2 ⟨i, hi, he⟩
        rw [hf] at this
        cases this
    · intro h
      rw [try_parts_not_found fs base parts h]
  refine ⟨try_parts_found fs base parts, hiff, ?_, ?_⟩
  · intro hf
    rw [try_parts_not_found fs base parts (hiff.1 hf)]
  · intro P1 P2 P3 h1 h2
    have := try_parts_found fs base [P1, P2, P3] 1 (by simp) h2 (fun j hj => by
      have hj0 : j = 0 := by omega
      subst hj0
      exact h1)
    rw [this]
    rfl

/-! ### `make_canonical_path` -/

theorem get_global_set_global_other_key (m : task_map) (s k v s' k' w : std_string)
    (h : get_global m s' k' = .ok w) (hk : k ≠ k') :
    get_global (set_global m s k v).map_ s' k' = .ok w := by
  rcases set_global_map_cases m s k v with ⟨_, _, h3⟩ | ⟨_, _, h3⟩
  · rw [h3, get_global_eq_stored, stored_assign]
    have hne : ¬ (([] : std_string) = [] ∧ s = s' ∧ k = k') := fun e => hk e.2.2
    rw [if_neg hne]
    exact (get_global_eq_stored m s' k' w).1 h
  · rw [h3]
    exact h

theorem make_canonical_path_dry (fs : filesystem) (m : task_map)
    (key parent leaf v : std_string) (hv : path_by_name m key = .ok v) :
    make_canonical_path fs true m key parent leaf =
      set_global m "paths".toList key
        (if v = [] then fs.div parent leaf
          else if fs.is_relative v then fs.div parent v else v) := by
  unfold make_canonical_path
  rw [hv]
  rfl

theorem make_canonical_path_dry_stores (fs : filesystem) (m : task_map)
    (key parent leaf v : std_string) (hv : path_by_name m key = .ok v) :
    (make_canonical_path fs true m key parent leaf).bail = none ∧
      path_by_name (make_canonical_path fs true m key parent leaf).map_ key =
        .ok (if v = [] then fs.div parent leaf
          else if fs.is_relative v then fs.div parent v else v) := by
  rw [make_canonical_path_dry fs m key parent leaf v hv]
  exact get_global_set_global m "paths".toList key _ v hv

/-- C14: in simulation mode, for a key whose value in the section `paths` is
`v`, `make_canonical_path(key, parent, leaf)` returns and leaves under the key
`parent/leaf` when `v` is empty, `parent/v` when `v` is relative, and `v` itself
otherwise; hence in a store with the prefix `P` and `install`, `install_bin`
empty, resolving `install` under the prefix and then `install_bin` under the
resolved `install` leaves `install = P/install` and
`install_bin = P/install/bin`. -/
theorem C14_make_canonical_path_simulation (fs : filesystem) (m : task_map) :
    (∀ key parent leaf v : std_string, path_by_name m key = .ok v →
        (make_canonical_path fs true m key parent leaf).bail = none ∧
        (v = [] →
          path_by_name (make_canonical_path fs true m key parent leaf).map_ key
            = .ok (fs.div parent leaf)) ∧
        (v ≠ [] → fs.is_relative v = true →
          path_by_name (make_canonical_path fs true m key parent leaf).map_ key
            = .ok (fs.div parent v)) ∧
        (v ≠ [] → fs.is_relative v = false →
          path_by_name (make_canonical_path fs true m key parent leaf).map_ key = .ok v)) ∧
      (∀ P : std_string, path_by_name m "prefix".toList = .ok P →
        path_by_name m "install".toList = .ok [] →
        path_by_name m "install_bin".toList = .ok [] →
        (init_options_install fs true m).bail = none ∧
        path_by_name (init_options_install fs true m).map_ "install".toList
          = .ok (fs.div P "install".toList) ∧
        path_by_name (init_options_install fs true m).map_ "install_bin".toList
          = .ok (fs.div (fs.div P "install".toList) "bin".toList)) := by
  constructor
  · intro key parent leaf v hv
    obtain ⟨h1, h2⟩ := make_canonical_path_dry_stores fs m key parent leaf v hv
    refine ⟨h1, ?_, ?_, ?_⟩
    · intro h0
      rw [h2, if_pos h0]
    · intro h0 hr
      rw [h2, if_neg h0, if_pos hr]
    · intro h0 hr
      rw [h2, if_neg h0]
      simp [hr]
  · intro P hP hi hb
    obtain ⟨h1, h2⟩ :=
      make_canonical_path_dry_stores fs m "install".toList P "install".toList [] hi
    simp only [if_true] at h2
    have hb1 : path_by_name
        (make_canonical_path fs true m "install".toList P "install".toList).map_
        "install_bin".toList = .ok [] := by
      rw [make_canonical_path_dry fs m "install".toList P "install".toList [] hi]
      exact get_global_set_global_other_key m "paths".toList "install".toList _
        "paths".toList "install_bin".toList [] hb (by decide)
    obtain ⟨g1, g2⟩ := make_canonical_path_dry_stores fs
      (make_canonical_path fs true m "install".toList P "install".toList).map_
      "install_bin".toList (fs.div P "install".toList) "bin".toList [] hb1
    simp only [if_true] at g2
    have hrun : init_options_install fs true m =
        make_canonical_path fs true
          (make_canonical_path fs true m "install".toList P "install".toList).map_
          "install_bin".toList (fs.div P "install".toList) "bin".toList := by
      unfold init_options_install
      simp only [hP, h1, h2]
    rw [hrun]
    refine ⟨g1, ?_, g2⟩
    rw [make_canonical_path_dry fs _ "install_bin".toList (fs.div P "install".toList)
      "bin".toList [] hb1]
    exact get_global_set_global_other_key _ "paths".toList "install_bin".toList _
      "paths".toList "install".toList _ h2 (by decide)

/-- Witness of C14: the store with `prefix = /root` and `install`,
`install_bin` empty, in the sample file system: `install` becomes
`/root/install` and `install_bin` becomes `/root/install/bin`. -/
theorem C14_make_canonical_path_simulation_witness :
    (init_options_install (sample_fs [] "/w".toList) true root_prefix_store).bail = none ∧
      path_by_name (init_options_install (sample_fs [] "/w".toList) true root_prefix_store).map_
        "install".toList = .ok "/root/install".toList ∧
      path_by_name (init_options_install (sample_fs [] "/w".toList) true root_prefix_store).map_
        "install_bin".toList = .ok "/root/install/bin".toList :=
  (C14_make_canonical_path_simulation (sample_fs [] "/w".toList) root_prefix_store).2
    "/root".toList (by decide) (by decide) (by decide)

/-! ### The cmake tool: `result`, `do_generate`, `do_run` -/

theorem get_generator_of_registered (cv : conf_values) (gen : generators) (g : gen_info)
    (h : all_generators cv gen = some g) : get_generator cv gen = .ok g := by
  unfold get_generator
  rw [h]

theorem get_generator_of_unregistered (cv : conf_values) (gen : generators)
    (h : all_generators cv gen = none) :
    get_generator cv gen = .error (.fatal "unknown generator".toList) := by
  unfold get_generator
  rw [h]

theorem build_path_of_output (cv : conf_values) (fs : filesystem) (c : cmake)
    (h : c.output_ ≠ []) : build_path cv fs c = .ok c.output_ := by
  unfold build_path
  rw [if_pos h]

theorem build_path_of_registered (cv : conf_values) (fs : filesystem) (c : cmake)
    (g : gen_info) (ho : c.output_ = []) (h : all_generators cv c.gen_ = some g) :
    build_path cv fs c = .ok (fs.div c.root_ (output_dir g c.arch_)) := by
  unfold build_path
  have hn : ¬ c.output_ ≠ [] := fun e => e ho
  rw [if_neg hn, get_generator_of_registered cv c.gen_ g h]

theorem build_path_of_unregistered (cv : conf_values) (fs : filesystem) (c : cmake)
    (ho : c.output_ = []) (h : all_generators cv c.gen_ = none) :
    build_path cv fs c = .error (.fatal "unknown generator".toList) := by
  unfold build_path
  have hn : ¬ c.output_ ≠ [] := fun e => e ho
  rw [if_neg hn, get_generator_of_unregistered cv c.gen_ h]

theorem build_path_ok_of_registered (cv : conf_values) (fs : filesystem) (c : cmake)
    (g : gen_info) (h : all_generators cv c.gen_ = some g) :
    build_path cv fs c =
      .ok (if c.output_ ≠ [] then c.output_ else fs.div c.root_ (output_dir g c.arch_)) := by
  by_cases ho : c.output_ = []
  · rw [build_path_of_registered cv fs c g ho h]
    simp [ho]
  · rw [build_path_of_output cv fs c ho]
    simp [ho]

theorem registered_iff (cv : conf_values) (gen : generators) :
    (∃ g, all_generators cv gen = some g) ↔ gen = .jom ∨ gen = .vs := by
  cases gen with
  | vs => simp [all_generators]
  | jom => simp [all_generators]
  | other code => simp [all_generators]

/-- C15, as stated, fails: a tool with no output override and a generator
identifier that is not in the table has no result path: `result()` bails out
with `unknown generator`. -/
theorem C15_result_path_counterexample :
    unregistered_cmake.output_ = [] ∧
      all_generators sample_values unregistered_cmake.gen_ = none ∧
      result sample_values (sample_fs [] []) unregistered_cmake
        = .error (.fatal "unknown generator".toList) := by
  refine ⟨by decide, by decide, by decide⟩

/-- C15, amended: for every cmake tool, `result()` is the output override when
one is set; otherwise, with the selected generator registered, it is the source
root joined with the generator's output directory, which is the directory name
with `_32` appended for x86 and the directory name itself for x64 and for
`dont_care`, and with the selected generator not registered it bails out with
`unknown generator`; the registered generators are jom, with the directory
`build`, and vs, with the directory `vsbuild`, and for every registered
generator the x86 output directory is not the x64 one. -/
theorem C15_result_path (cv : conf_values) (fs : filesystem) (c : cmake) :
    (c.output_ ≠ [] → result cv fs c = .ok c.output_) ∧
      (c.output_ = [] → ∀ g, all_generators cv c.gen_ = some g →
        result cv fs c = .ok (fs.div c.root_ (output_dir g c.arch_))) ∧
      (∀ g : gen_info, output_dir g .x86 = g.dir ++ "_32".toList ∧
        output_dir g .x64 = g.dir ∧ output_dir g .dont_care = g.dir) ∧
      (∀ gen g, all_generators cv gen = some g → output_dir g .x86 ≠ output_dir g .x64) ∧
      (c.output_ = [] → all_generators cv c.gen_ = none →
        result cv fs c = .error (.fatal "unknown generator".toList)) ∧
      (∀ gen, (∃ g, all_generators cv gen = some g) ↔ gen = .jom ∨ gen = .vs) ∧
      (∃ g, all_generators cv .jom = some g ∧ g.dir = "build".toList ∧
        output_dir g .x86 = "build_32".toList ∧ output_dir g .x64 = "build".toList) ∧
      (∃ g, all_generators cv .vs = some g ∧ g.dir = "vsbuild".toList ∧
        output_dir g .x86 = "vsbuild_32".toList ∧ output_dir g .x64 = "vsbuild".toList) := by
  refine ⟨build_path_of_output cv fs c, fun ho g hg => build_path_of_registered cv fs c g ho hg,
    fun g => ⟨rfl, rfl, rfl⟩, ?_, fun ho hg => build_path_of_unregistered cv fs c ho hg,
    registered_iff cv, ⟨_, rfl, rfl, rfl, rfl⟩, ⟨_, rfl, rfl, rfl, rfl⟩⟩
  intro gen g _ h
  have hl := congrArg List.length h
  simp [output_dir] at hl

/-- Witness of C15: with the source root `src` and no override, the jom
generator for x86 gives `src/build_32`, the vs generator for x64 gives
`src/vsbuild`, and an identifier outside the table gives the bail-out; with
the override `out` the result is `out`; and the x86 directory of the jom entry
is not its x64 directory. -/
theorem C15_result_path_witness :
    result sample_values (sample_fs [] []) (src_cmake .jom .x86) = .ok "src/build_32".toList ∧
      result sample_values (sample_fs [] []) (src_cmake .vs .x64) = .ok "src/vsbuild".toList ∧
      result sample_values (sample_fs [] []) (src_cmake (.other 3) .x64)
        = .error (.fatal "unknown generator".toList) ∧
      result sample_values (sample_fs [] []) (ninja_cmake .generate) = .ok "out".toList ∧
      output_dir ⟨"build".toList, "NMake Makefiles JOM".toList, [], []⟩ .x86 ≠
        output_dir ⟨"build".toList, "NMake Makefiles JOM".toList, [], []⟩ .x64 :=
  ⟨(C15_result_path sample_values (sample_fs [] []) (src_cmake .jom .x86)).2.1 rfl
      ⟨"build".toList, "NMake Makefiles JOM".toList, [], []⟩ rfl,
    (C15_result_path sample_values (sample_fs [] []) (src_cmake .vs .x64)).2.1 rfl
      ⟨"vsbuild".toList, "Visual Studio 16 2019".toList, "Win32".toList, "x64".toList⟩
      (by decide),
    (C15_result_path sample_values (sample_fs [] []) (src_cmake (.other 3) .x64)).2.2.2.2.1
      rfl rfl,
    (C15_result_path sample_values (sample_fs [] []) (ninja_cmake .generate)).1 (by decide),
    (C15_result_path sample_values (sample_fs [] []) (src_cmake .jom .x86)).2.2.2.1 .jom
      ⟨"build".toList, "NMake Makefiles JOM".toList, [], []⟩ rfl⟩

/-- The `arg` calls of `do_generate` for a registered generator `g`. -/
theorem do_generate_of_registered (cv : conf_values) (fs : filesystem) (m : task_map)
    (c : cmake) (g : gen_info) (bin : std_string)
    (hroot : c.root_ ≠ []) (hg : all_generators cv c.gen_ = some g)
    (hbin : tool_by_name m "cmake".toList = .ok bin) :
    do_generate cv fs m c =
      .ok ⟨bin,
        baseline_args ++
          (if c.genstring_ = [] then
            [.two "-G".toList (quoted g.name), .one (get_arch g c.arch_)]
          else [.two "-G".toList (quoted c.genstring_)]) ++
          (if c.prefix_ ≠ [] then [.two "-DCMAKE_INSTALL_PREFIX=".toList c.prefix_] else []) ++
          c.def_.map (fun d => .one ("-D".toList ++ d.1 ++ "=".toList ++ d.2 ++ [])) ++
          (if c.cmd_ = [] then [.one "..".toList] else [.one c.cmd_]),
        c.arch_, [("CXXFLAGS".toList, "/wd4566".toList)],
        if c.output_ ≠ [] then c.output_ else fs.div c.root_ (output_dir g c.arch_)⟩ := by
  unfold do_generate
  rw [if_neg hroot, get_generator_of_registered cv c.gen_ g hg, hbin,
    build_path_ok_of_registered cv fs c g hg]

theorem cmake_def_foldl (defs : List (std_string × std_string)) :
    ∀ c : cmake, (defs.foldl (fun acc d => cmake_def acc d.1 d.2) c).def_ = c.def_ ++ defs := by
  induction defs with
  | nil =>
    intro c
    simp
  | cons d rest ih =>
    intro c
    rw [List.foldl_cons, ih]
    simp [cmake_def]

/-- C16, as stated, fails: a tool with a non-empty source root, the literal
generator string `Ninja`, an output override and a generator identifier that is
not registered builds no argument sequence: `do_generate` looks the identifier
up before anything else and bails out. -/
theorem C16_generate_arguments_counterexample :
    (ninja_cmake .generate).root_ ≠ [] ∧
      tool_by_name cmake_store "cmake".toList = .ok "cmake.exe".toList ∧
      do_generate sample_values (sample_fs [] []) cmake_store (ninja_cmake .generate)
        = .error (.fatal "unknown generator".toList) := by
  refine ⟨by decide, by decide, by decide⟩

/-- C16, amended: for every cmake tool with a non-empty source root and a
registered generator identifier, `do_generate` ends with the error of the
lookup of `tools/cmake` when the store has no such key, and otherwise sets up a
process whose `arg` calls are, in this order: the four baseline flags; `-G`
with the quoted literal generator string alone if one was given, otherwise `-G`
with the quoted registered name followed by the generator's architecture flag;
the install-prefix flag if and only if a prefix is set; one `-Dname=value` per
build definition, in the order of `def_`, which is the order in which `def`
added them; the literal extra token if set and `..` otherwise; its working
directory is the result path. -/
theorem C16_generate_arguments (cv : conf_values) (fs : filesystem) (m : task_map)
    (c : cmake) (g : gen_info) (hroot : c.root_ ≠ [])
    (hg : all_generators cv c.gen_ = some g) :
    (∀ e, tool_by_name m "cmake".toList = .error e → do_generate cv fs m c = .error e) ∧
      (∀ bin, tool_by_name m "cmake".toList = .ok bin →
        ∃ p cwd, do_generate cv fs m c = .ok p ∧ result cv fs c = .ok cwd ∧ p.cwd = cwd ∧
          p.binary = bin ∧
          p.args =
            baseline_args ++
              (if c.genstring_ = [] then
                [.two "-G".toList (quoted g.name), .one (get_arch g c.arch_)]
              else [.two "-G".toList (quoted c.genstring_)]) ++
              (if c.prefix_ = [] then []
                else [.two "-DCMAKE_INSTALL_PREFIX=".toList c.prefix_]) ++
              c.def_.map (fun d => .one ("-D".toList ++ d.1 ++ "=".toList ++ d.2)) ++
              [.one (if c.cmd_ = [] then "..".toList else c.cmd_)]) ∧
      (∀ defs : List (std_string × std_string),
        (defs.foldl (fun acc d => cmake_def acc d.1 d.2) c).def_ = c.def_ ++ defs) := by
  refine ⟨?_, ?_, fun defs => cmake_def_foldl defs c⟩
  · intro e he
    unfold do_generate
    rw [if_neg hroot, get_generator_of_registered cv c.gen_ g hg, he]
  · intro bin hbin
    refine ⟨_, _, do_generate_of_registered cv fs m c g bin hroot hg hbin,
      build_path_ok_of_registered cv fs c g hg, rfl, rfl, ?_⟩
    by_cases hp : c.prefix_ = [] <;> by_cases hc : c.cmd_ = [] <;> simp [hp, hc]

/-- Witness of C16: the default jom generator for x64 with a prefix and two
build definitions. -/
theorem C16_generate_arguments_witness :
    ∃ p cwd, do_generate sample_values (sample_fs [] []) cmake_store
          ⟨.generate, .jom, [], "src".toList, [], "/p".toList,
            [("A".toList, "1".toList), ("B".toList, "2".toList)], .x64, []⟩ = .ok p ∧
        result sample_values (sample_fs [] [])
          ⟨.generate, .jom, [], "src".toList, [], "/p".toList,
            [("A".toList, "1".toList), ("B".toList, "2".toList)], .x64, []⟩ = .ok cwd ∧
        p.cwd = cwd ∧ cwd = "src/build".toList ∧ p.binary = "cmake.exe".toList ∧
        p.args =
          baseline_args ++
            [.two "-G".toList (quoted "NMake Makefiles JOM".toList), .one [],
              .two "-DCMAKE_INSTALL_PREFIX=".toList "/p".toList,
              .one "-DA=1".toList, .one "-DB=2".toList, .one "..".toList] := by
  obtain ⟨p, cwd, h1, h2, h3, h4, h5⟩ :=
    (C16_generate_arguments sample_values (sample_fs [] []) cmake_store
      ⟨.generate, .jom, [], "src".toList, [], "/p".toList,
        [("A".toList, "1".toList), ("B".toList, "2".toList)], .x64, []⟩
      ⟨"build".toList, "NMake Makefiles JOM".toList, [], []⟩
      (by decide) (by decide)).2.1 "cmake.exe".toList (by decide)
  refine ⟨p, cwd, h1, h2, h3, ?_, h4, ?_⟩
  · have : result sample_values (sample_fs [] [])
        ⟨.generate, .jom, [], "src".toList, [], "/p".toList,
          [("A".toList, "1".toList), ("B".toList, "2".toList)], .x64, []⟩
        = .ok "src/build".toList := by decide
    rw [this] at h2
    cases h2
    rfl
  · rw [h5]
    decide

/-- C17, as stated, fails: with the mode `clean`, an output override and a
generator identifier that is not in the table, the run does not fail: it
deletes the override directory without consulting the table. -/
theorem C17_unregistered_generator_counterexample :
    all_generators sample_values (ninja_cmake .clean).gen_ = none ∧
      do_run sample_values (sample_fs [] []) cmake_store (ninja_cmake .clean)
        = .ok (.delete_directory "out".toList) := by
  refine ⟨by decide, by decide⟩

/-- C17, amended: a run of the cmake tool bails out, with no process set up,
when the mode is `generate` and the source root is empty, when the mode is
neither `clean` nor `generate`, and when the generator identifier is not in the
table and the mode is `generate`, or `clean` with no output override (a `clean`
with an output override deletes that directory); with the mode `generate`, a
non-empty root and a registered generator it sets up a process whenever the
store holds `tools/cmake`, and its only bail-out is that of this lookup. -/
theorem C17_run_failures (cv : conf_values) (fs : filesystem) (m : task_map) (c : cmake) :
    (c.op_ = .generate → c.root_ = [] →
        do_run cv fs m c = .error (.fatal "cmake output path is empty".toList)) ∧
      (∀ code, c.op_ = .other code → do_run cv fs m c = .error (.fatal (bad_cmake_op code))) ∧
      (all_generators cv c.gen_ = none →
        (c.op_ = .generate → c.root_ ≠ [] →
          do_run cv fs m c = .error (.fatal "unknown generator".toList)) ∧
        (c.op_ = .clean → c.output_ = [] →
          do_run cv fs m c = .error (.fatal "unknown generator".toList)) ∧
        (c.op_ = .clean → c.output_ ≠ [] →
          do_run cv fs m c = .ok (.delete_directory c.output_))) ∧
      (∀ g, c.op_ = .generate → c.root_ ≠ [] → all_generators cv c.gen_ = some g →
        (∀ bin, tool_by_name m "cmake".toList = .ok bin →
          ∃ p, do_run cv fs m c = .ok (.run p)) ∧
        (∀ e, do_run cv fs m c = .error e → tool_by_name m "cmake".toList = .error e)) := by
  refine ⟨?_, ?_, ?_, ?_⟩
  · intro hop hroot
    simp [do_run, hop, do_generate, hroot]
  · intro code hop
    simp [do_run, hop]
  · intro hg
    refine ⟨?_, ?_, ?_⟩
    · intro hop hroot
      simp [do_run, hop, do_generate, hroot, get_generator_of_unregistered cv c.gen_ hg]
    · intro hop ho
      simp [do_run, hop, build_path_of_unregistered cv fs c ho hg]
    · intro hop ho
      simp [do_run, hop, build_path_of_output cv fs c ho]
  · intro g hop hroot hg
    constructor
    · intro bin hbin
      have hd := do_generate_of_registered cv fs m c g bin hroot hg hbin
      simp only [do_run, hop, hd]
      exact ⟨_, rfl⟩
    · intro e he
      cases hbin : tool_by_name m "cmake".toList with
      | ok bin =>
        simp [do_run, hop, do_generate_of_registered cv fs m c g bin hroot hg hbin] at he
      | error e' =>
        have : do_generate cv fs m c = .error e' := by
          unfold do_generate
          rw [if_neg hroot, get_generator_of_registered cv c.gen_ g hg, hbin]
        simp [do_run, hop, this] at he
        rw [he]

/-! ### `find_inis` -/

theorem strip_equivalent_cons (fs : filesystem) (p x : std_string) (l : List std_string) :
    strip_equivalent fs p (x :: l) =
      if fs.equivalent p x then l else x :: strip_equivalent fs p l := by
  unfold strip_equivalent
  by_cases h : fs.equivalent p x = true
  · simp [erase_equivalent, h]
  · simp only [erase_equivalent, h, if_false, Bool.false_eq_true]
    cases erase_equivalent fs p l <;> rfl

theorem add_ini_eq_strip (fs : filesystem) (v : List std_string) (p : std_string) :
    add_ini fs v p = strip_equivalent fs p v ++ [p] := by
  unfold add_ini strip_equivalent
  cases erase_equivalent fs p v <;> rfl

theorem add_inis_ok (fs : filesystem) (cl : List std_string) :
    ∀ v, (∀ p ∈ cl, fs.exists_ p = true) →
      add_inis fs v cl = .ok (cl.foldl (add_ini fs) v) := by
  induction cl with
  | nil =>
    intro v _
    rfl
  | cons p rest ih =>
    intro v h
    have hp : fs.exists_ p = true := h p (List.mem_cons_self p rest)
    simp only [add_inis, hp, Bool.not_true, Bool.false_eq_true, if_false, List.foldl_cons]
    exact ih _ (fun q hq => h q (List.mem_cons_of_mem p hq))

theorem strip_equivalent_of_none (fs : filesystem) (p : std_string) (l : List std_string)
    (h : ∀ q ∈ l, fs.equivalent p q = false) : strip_equivalent fs p l = l := by
  induction l with
  | nil => rfl
  | cons x rest ih =>
    have hx : fs.equivalent p x = false := h x (List.mem_cons_self x rest)
    rw [strip_equivalent_cons, hx]
    simp only [Bool.false_eq_true, if_false]
    rw [ih (fun q hq => h q (List.mem_cons_of_mem x hq))]

theorem strip_equivalent_append (fs : filesystem) (p : std_string)
    (v done : List std_string) (h : ∀ q ∈ done, fs.equivalent p q = false) :
    strip_equivalent fs p (v ++ done) = strip_equivalent fs p v ++ done := by
  induction v with
  | nil =>
    rw [List.nil_append, strip_equivalent_of_none fs p done h]
    rfl
  | cons x rest ih =>
    rw [List.cons_append, strip_equivalent_cons, strip_equivalent_cons, ih]
    by_cases hx : fs.equivalent p x = true
    · simp [hx]
    · simp [hx]

theorem foldl_add_ini (fs : filesystem) (cl : List std_string) :
    ∀ v done : List std_string,
      (∀ p ∈ cl, ∀ q ∈ done, fs.equivalent p q = false) →
      cl.Pairwise (fun a b => fs.equivalent b a = false) →
      cl.foldl (add_ini fs) (v ++ done) =
        cl.foldl (fun acc p => strip_equivalent fs p acc) v ++ done ++ cl := by
  induction cl with
  | nil =>
    intro v done _ _
    simp
  | cons p rest ih =>
    intro v done hd hp
    rw [List.pairwise_cons] at hp
    have h1 : add_ini fs (v ++ done) p = strip_equivalent fs p v ++ (done ++ [p]) := by
      rw [add_ini_eq_strip,
        strip_equivalent_append fs p v done (hd p (List.mem_cons_self p rest)),
        List.append_assoc]
    rw [List.foldl_cons, List.foldl_cons, h1, ih (strip_equivalent fs p v) (done ++ [p]) ?_ hp.2]
    · simp
    · intro q hq d hdm
      rcases List.mem_append.1 hdm with hd1 | hd2
      · exact hd q (List.mem_cons_of_mem p hq) d hd1
      · rw [List.mem_singleton] at hd2
        subst hd2
        exact hp.1 q hq

theorem strip_equivalent_sublist (fs : filesystem) (p : std_string) (v : List std_string) :
    (strip_equivalent fs p v).Sublist v := by
  induction v with
  | nil => exact List.Sublist.refl _
  | cons x rest ih =>
    rw [strip_equivalent_cons]
    by_cases hx : fs.equivalent p x = true
    · simp only [hx, if_true]
      exact List.sublist_cons_self x rest
    · simp only [hx, if_false, Bool.false_eq_true]
      exact List.Sublist.cons₂ x ih

theorem foldl_strip_sublist (fs : filesystem) (cl : List std_string) :
    ∀ v, (cl.foldl (fun acc p => strip_equivalent fs p acc) v).Sublist v := by
  induction cl with
  | nil =>
    intro v
    exact List.Sublist.refl _
  | cons p rest ih =>
    intro v
    rw [List.foldl_cons]
    exact (ih _).trans (strip_equivalent_sublist fs p v)

theorem foldl_strip_cons (fs : filesystem) (cl : List std_string) (master : std_string)
    (h : ∀ p ∈ cl, fs.equivalent p master = false) :
    ∀ v, cl.foldl (fun acc p => strip_equivalent fs p acc) (master :: v) =
      master :: cl.foldl (fun acc p => strip_equivalent fs p acc) v := by
  induction cl with
  | nil =>
    intro v
    rfl
  | cons p rest ih =>
    intro v
    have hp : fs.equivalent p master = false := h p (List.mem_cons_self p rest)
    rw [List.foldl_cons, List.foldl_cons, strip_equivalent_cons, hp]
    simp only [Bool.false_eq_true, if_false]
    exact ih (fun q hq => h q (List.mem_cons_of_mem p hq)) _

theorem strip_equivalent_eq_filter (fs : filesystem) (p : std_string)
    (hsymm : ∀ a b, fs.equivalent a b = true → fs.equivalent b a = true)
    (htrans : ∀ a b c, fs.equivalent a b = true → fs.equivalent b c = true →
      fs.equivalent a c = true)
    (v : List std_string) (hv : v.Pairwise (fun a b => fs.equivalent a b = false)) :
    strip_equivalent fs p v = v.filter (fun x => !fs.equivalent p x) := by
  induction v with
  | nil => rfl
  | cons x rest ih =>
    rw [List.pairwise_cons] at hv
    rw [strip_equivalent_cons]
    by_cases hx : fs.equivalent p x = true
    · have hrest : ∀ y ∈ rest, (!fs.equivalent p y) = true := by
        intro y hy
        cases hy' : fs.equivalent p y with
        | false => rfl
        | true =>
          have := htrans x p y (hsymm p x hx) hy'
          rw [hv.1 y hy] at this
          cases this
      simp only [hx, if_true, List.filter_cons, Bool.not_true, Bool.false_eq_true, if_false]
      exact (List.filter_eq_self.2 hrest).symm
    · simp only [hx, if_false, Bool.false_eq_true, List.filter_cons]
      rw [ih hv.2]
      simp [hx]

theorem foldl_strip_eq_filter (fs : filesystem)
    (hsymm : ∀ a b, fs.equivalent a b = true → fs.equivalent b a = true)
    (htrans : ∀ a b c, fs.equivalent a b = true → fs.equivalent b c = true →
      fs.equivalent a c = true) (cl : List std_string) :
    ∀ v : List std_string, v.Pairwise (fun a b => fs.equivalent a b = false) →
      cl.foldl (fun acc p => strip_equivalent fs p acc) v =
        v.filter (fun x => cl.all (fun p => !fs.equivalent p x)) := by
  induction cl with
  | nil =>
    intro v _
    simp
  | cons p rest ih =>
    intro v hv
    rw [List.foldl_cons, strip_equivalent_eq_filter fs p hsymm htrans v hv,
      ih _ (List.Pairwise.sublist (List.filter_sublist v) hv), List.filter_filter]
    congr 1
    funext x
    simp only [List.all_cons]
    exact Bool.and_comm _ _

/-- C18, as stated, fails: when the caller supplies the master ini itself, the
master is erased from the front of the list and put at the end; the first
element of the ingestion order is then the sibling `a.ini`. -/
theorem C18_master_first_counterexample :
    find_master_ini ini_dir_fs = .ok "/r/mob.ini".toList ∧
      ini_dir_fs.exists_ "/r/mob.ini".toList = true ∧
      find_inis ini_dir_fs ["/r/mob.ini".toList]
        = .ok ["/r/a.ini".toList, "/r/b.ini".toList, "/r/mob.ini".toList] := by
  refine ⟨by decide, by decide, by decide⟩

/-- C18, amended: for every directory listing and every list of existing
caller-supplied ini files of which none is path-equivalent to the master ini or
to one supplied before it, `find_inis` returns the master ini, then the sibling
`.ini` files in lexicographic order without, for each caller-supplied file in
turn, the first sibling equivalent to it, then the caller-supplied files in
caller order; when path-equivalence is symmetric and transitive and no two
entries among the master and the siblings are equivalent, the siblings kept are
exactly those equivalent to no caller-supplied file, no entry in front of the
caller-supplied files is equivalent to one of them, and no two entries of the
list are equivalent. -/
theorem C18_find_inis_order (fs : filesystem) (cl : List std_string) (master : std_string)
    (hm : find_master_ini fs = .ok master)
    (hex : ∀ p ∈ cl, fs.exists_ p = true)
    (hcl : cl.Pairwise (fun a b => fs.equivalent b a = false))
    (hmaster : ∀ p ∈ cl, fs.equivalent p master = false) :
    ∃ kept_siblings,
      find_inis fs cl = .ok (master :: kept_siblings ++ cl) ∧
      kept_siblings =
        cl.foldl (fun acc p => strip_equivalent fs p acc) (sort_paths (sibling_inis fs master)) ∧
      kept_siblings.Sublist (sort_paths (sibling_inis fs master)) ∧
      kept_siblings.Sorted (· ≤ ·) ∧
      (sort_paths (sibling_inis fs master)).Perm (sibling_inis fs master) ∧
      ((∀ a b, fs.equivalent a b = true → fs.equivalent b a = true) →
        (∀ a b c, fs.equivalent a b = true → fs.equivalent b c = true →
          fs.equivalent a c = true) →
        (master :: sort_paths (sibling_inis fs master)).Pairwise
          (fun a b => fs.equivalent a b = false) →
        kept_siblings =
          (sort_paths (sibling_inis fs master)).filter
            (fun x => cl.all (fun p => !fs.equivalent p x)) ∧
        (∀ x ∈ master :: kept_siblings, ∀ p ∈ cl, fs.equivalent p x = false) ∧
        (master :: kept_siblings ++ cl).Pairwise
          (fun a b => fs.equivalent a b = false ∧ fs.equivalent b a = false)) := by
  have hsorted : (sort_paths (sibling_inis fs master)).Sorted (· ≤ ·) :=
    List.sorted_insertionSort (· ≤ ·) _
  have hsub := foldl_strip_sublist fs cl (sort_paths (sibling_inis fs master))
  refine ⟨cl.foldl (fun acc p => strip_equivalent fs p acc) (sort_paths (sibling_inis fs master)),
    ?_, rfl, hsub, List.Pairwise.sublist hsub hsorted, List.perm_insertionSort (· ≤ ·) _, ?_⟩
  · unfold find_inis
    rw [hm]
    simp only []
    rw [add_inis_ok fs cl _ hex]
    have h := foldl_add_ini fs cl (master :: sort_paths (sibling_inis fs master)) []
      (fun _ _ q hq => by cases hq) hcl
    rw [List.append_nil, List.append_nil] at h
    rw [h, foldl_strip_cons fs cl master hmaster]
  · intro hsymm htrans hpair
    have hpair' := hpair
    rw [List.pairwise_cons] at hpair'
    have hfilter := foldl_strip_eq_filter fs hsymm htrans cl _ hpair'.2
    have hfront : ∀ x ∈ master ::
        cl.foldl (fun acc p => strip_equivalent fs p acc) (sort_paths (sibling_inis fs master)),
        ∀ p ∈ cl, fs.equivalent p x = false := by
      intro x hx p hp
      rcases List.mem_cons.1 hx with hxm | hxk
      · rw [hxm]
        exact hmaster p hp
      · rw [hfilter, List.mem_filter, List.all_eq_true] at hxk
        have := hxk.2 p hp
        simpa using this
    have hneg : ∀ a b, fs.equivalent a b = false → fs.equivalent b a = false := by
      intro a b hab
      cases hba : fs.equivalent b a with
      | false => rfl
      | true =>
        have := hsymm b a hba
        rw [hab] at this
        cases this
    refine ⟨hfilter, hfront, ?_⟩
    have hfrontpair : (master ::
        cl.foldl (fun acc p => strip_equivalent fs p acc)
          (sort_paths (sibling_inis fs master))).Pairwise
        (fun a b => fs.equivalent a b = false ∧ fs.equivalent b a = false) := by
      have hs : (master :: cl.foldl (fun acc p => strip_equivalent fs p acc)
          (sort_paths (sibling_inis fs master))).Sublist
          (master :: sort_paths (sibling_inis fs master)) := List.Sublist.cons₂ master hsub
      exact (List.Pairwise.sublist hs hpair).imp (fun {a b} hab => ⟨hab, hneg a b hab⟩)
    have hclpair : cl.Pairwise
        (fun a b => fs.equivalent a b = false ∧ fs.equivalent b a = false) :=
      hcl.imp (fun {a b} hab => ⟨hneg b a hab, hab⟩)
    rw [List.pairwise_append]
    refine ⟨hfrontpair, hclpair, ?_⟩
    intro x hx p hp
    exact ⟨hneg p x (hfront x hx p hp), hfront x hx p hp⟩

/-- Witness of C18: the directory `/r` with the siblings `b.ini`, `a.ini`, and
the caller-supplied files `/x/extra.ini` and `/r/b.ini`. -/
theorem C18_find_inis_order_witness :
    ∃ kept_siblings,
      find_inis ini_dir_fs ["/x/extra.ini".toList, "/r/b.ini".toList]
        = .ok ("/r/mob.ini".toList :: kept_siblings ++
            ["/x/extra.ini".toList, "/r/b.ini".toList]) ∧
      kept_siblings = ["/r/a.ini".toList] := by
  obtain ⟨kept, h1, h2, _⟩ := C18_find_inis_order ini_dir_fs
    ["/x/extra.ini".toList, "/r/b.ini".toList] "/r/mob.ini".toList
    (by decide) (by decide) (by decide) (by decide)
  refine ⟨kept, h1, ?_⟩
  rw [h2]
  decide

/-! ### Simulation mode -/

theorem try_parts_nothing_exists (fs : filesystem) (h : ∀ p, fs.exists_ p = false)
    (check : std_string) (parts : List std_string) :
    (try_parts fs check parts).found = false ∧ (try_parts fs check parts).check = check := by
  rw [try_parts_not_found fs check parts (fun i _ => h _)]
  exact ⟨rfl, rfl⟩

theorem try_qt_location_nothing_exists (cv : conf_values) (fs : filesystem)
    (h : ∀ p, fs.exists_ p = false) (check : std_string) :
    try_qt_location cv fs check = (false, check) := by
  have hq : find_qmake cv fs check = (false, check) := by
    unfold find_qmake
    simp [(try_parts_nothing_exists fs h check _).1]
  unfold try_qt_location
  simp [hq]

theorem set_path_if_empty_dry (fs : filesystem) (m : task_map) (k v x : std_string)
    (f : Except bailed std_string) (hv : get_global m "paths".toList k = .ok v)
    (hf : (if v = [] then f else .ok v) = .ok x) :
    set_path_if_empty fs true m k f = set_global m "paths".toList k (fs.absolute x) := by
  unfold set_path_if_empty
  simp only [hv, hf]
  rfl

/-- C19, as stated, fails: `validate_qt` has no simulation branch; in a file
system where no path exists it bails out on the missing qmake, whatever the
mode, and leaves the store as it was. -/
theorem C19_validate_qt_requires_path_counterexample :
    (∀ p, (sample_fs [] []).exists_ p = false) ∧
      validate_qt sample_values (sample_fs [] []) toolchain_store
        = ⟨some (.fatal "qt path /qt doesn't exist".toList), toolchain_store⟩ := by
  refine ⟨fun p => rfl, by decide⟩

theorem find_qmake_of_missing (cv : conf_values) (fs : filesystem) (check : std_string)
    (h : qmake_missing cv fs check) : find_qmake cv fs check = (false, check) := by
  have h1 : (try_parts fs check (qmake_parts_prefixed cv)).found = false := by
    rw [try_parts_not_found fs check (qmake_parts_prefixed cv) h.1]
  have h2 : (try_parts fs check (qmake_parts_plain cv)).found = false := by
    rw [try_parts_not_found fs check (qmake_parts_plain cv) h.2]
  unfold qmake_parts_prefixed at h1
  unfold qmake_parts_plain at h2
  unfold find_qmake
  simp only [h1, h2, if_false, Bool.false_eq_true]

theorem find_qmake_of_not_missing (cv : conf_values) (fs : filesystem) (check : std_string)
    (h : ¬ qmake_missing cv fs check) : (find_qmake cv fs check).1 = true := by
  have hsome : (try_parts fs check (qmake_parts_prefixed cv)).found = true ∨
      (try_parts fs check (qmake_parts_plain cv)).found = true := by
    by_contra hc
    rw [not_or] at hc
    apply h
    constructor
    · intro i hi
      cases he : fs.exists_ (suffix_path fs check (qmake_parts_prefixed cv) i) with
      | false => rfl
      | true =>
        exact absurd ((try_parts_found_iff fs check (qmake_parts_prefixed cv)).2 ⟨i, hi, he⟩)
          hc.1
    · intro i hi
      cases he : fs.exists_ (suffix_path fs check (qmake_parts_plain cv) i) with
      | false => rfl
      | true =>
        exact absurd ((try_parts_found_iff fs check (qmake_parts_plain cv)).2 ⟨i, hi, he⟩)
          hc.2
  unfold qmake_parts_prefixed qmake_parts_plain at hsome
  unfold find_qmake
  by_cases h1 : (try_parts fs check
      ["Qt".toList, "Qt".toList ++ cv.qt_version,
        "msvc".toList ++ cv.qt_vs_version ++ "_64".toList, "bin".toList,
        "qmake.exe".toList]).found = true
  · simp only [h1, if_true]
  · rcases hsome with h' | h2
    · exact absurd h' h1
    · simp only [h1, h2, if_true, if_false, Bool.false_eq_true]

theorem validate_qt_of_missing (cv : conf_values) (fs : filesystem) (m : task_map)
    (h : qmake_missing cv fs cv.qt_installation_path) :
    validate_qt cv fs m =
      ⟨some (.fatal ("qt path ".toList ++ cv.qt_installation_path ++
        " doesn't exist".toList)), m⟩ := by
  have hq : try_qt_location cv fs cv.qt_installation_path = (false, cv.qt_installation_path) := by
    unfold try_qt_location
    simp [find_qmake_of_missing cv fs _ h]
  unfold validate_qt
  rw [hq]
  rfl

theorem validate_qt_of_not_missing (cv : conf_values) (fs : filesystem) (m : task_map)
    (h : ¬ qmake_missing cv fs cv.qt_installation_path) :
    validate_qt cv fs m =
      set_global m "paths".toList "qt_install".toList
        (fs.absolute (fs.div (fs.parent_path (find_qmake cv fs cv.qt_installation_path).2)
          "..".toList)) := by
  have hf := find_qmake_of_not_missing cv fs _ h
  have hq : try_qt_location cv fs cv.qt_installation_path =
      (true, fs.absolute (fs.div (fs.parent_path (find_qmake cv fs cv.qt_installation_path).2)
        "..".toList)) := by
    unfold try_qt_location
    simp [hf]
  unfold validate_qt
  rw [hq]
  rfl

/-- C19, amended: in simulation mode `find_vs` returns the placeholder, the
path of vswhere, without running the process, and `find_vcvars`,
`set_path_if_empty` and `make_canonical_path` check no existence: for every
existence predicate `find_vcvars` returns without writing the store when
`tools/vcvars` is a key, `set_path_if_empty` returns and stores the absolute
path of the key's value, or of what its fallback yields when the value is
empty, and `make_canonical_path` returns when its key is in the store;
`validate_qt` makes its existence check in every mode: it bails out, leaving
the store as it was, whenever none of the paths `find_qmake` probes under the
Qt installation path exists (so also when no path exists at all), and when one
of them exists it goes on to write `paths/qt_install`. -/
theorem C19_simulation_mode_steps (cv : conf_values) (fs : filesystem)
    (trim : std_string → std_string) (m : task_map) :
    (∀ exit_code stdout_string,
        find_vs cv fs trim true exit_code stdout_string = ⟨.ok cv.vs_vswhere, false⟩) ∧
      (∀ bat, tool_by_name m "vcvars".toList = .ok bat →
        find_vcvars cv fs true m = ⟨none, m⟩) ∧
      (∀ k v f, get_global m "paths".toList k = .ok v → v ≠ [] →
        (set_path_if_empty fs true m k f).bail = none ∧
        path_by_name (set_path_if_empty fs true m k f).map_ k = .ok (fs.absolute v)) ∧
      (∀ k f x, get_global m "paths".toList k = .ok [] → f = .ok x →
        (set_path_if_empty fs true m k f).bail = none ∧
        path_by_name (set_path_if_empty fs true m k f).map_ k = .ok (fs.absolute x)) ∧
      (∀ key parent leaf v, path_by_name m key = .ok v →
        (make_canonical_path fs true m key parent leaf).bail = none) ∧
      ((∀ p, fs.exists_ p = false) →
        validate_qt cv fs m =
          ⟨some (.fatal ("qt path ".toList ++ cv.qt_installation_path ++
            " doesn't exist".toList)), m⟩) ∧
      (qmake_missing cv fs cv.qt_installation_path →
        validate_qt cv fs m =
          ⟨some (.fatal ("qt path ".toList ++ cv.qt_installation_path ++
            " doesn't exist".toList)), m⟩) ∧
      (¬ qmake_missing cv fs cv.qt_installation_path →
        validate_qt cv fs m =
          set_global m "paths".toList "qt_install".toList
            (fs.absolute (fs.div (fs.parent_path (find_qmake cv fs cv.qt_installation_path).2)
              "..".toList))) := by
  refine ⟨fun _ _ => rfl, ?_, ?_, ?_, ?_, ?_, validate_qt_of_missing cv fs m,
    validate_qt_of_not_missing cv fs m⟩
  · intro bat hbat
    unfold find_vcvars
    rw [hbat]
    rfl
  · intro k v f hv hne
    rw [set_path_if_empty_dry fs m k v v f hv (by rw [if_neg hne])]
    exact get_global_set_global m "paths".toList k _ v hv
  · intro k f x hv hf
    rw [set_path_if_empty_dry fs m k [] x f hv (by rw [if_pos rfl, hf])]
    exact get_global_set_global m "paths".toList k _ [] hv
  · intro key parent leaf v hv
    exact (make_canonical_path_dry_stores fs m key parent leaf v hv).1
  · intro h
    unfold validate_qt
    rw [try_qt_location_nothing_exists cv fs h]
    rfl

/-- Witness of C19: in a file system where the Qt directory `/qt` exists and
holds no qmake, `validate_qt` bails out, as it does where no path exists; where
`/qt/bin/qmake.exe` exists it writes `paths/qt_install`; in the same store the
simulation-mode `find_vcvars` returns, `set_path_if_empty` stores the fallback
for the empty `paths/vs` and the value for the non-empty `paths/qt_install`,
and `make_canonical_path` returns for `paths/vs`. -/
theorem C19_simulation_mode_steps_witness :
    qt_without_qmake_fs.exists_ "/qt".toList = true ∧
      validate_qt sample_values qt_without_qmake_fs toolchain_store
        = ⟨some (.fatal "qt path /qt doesn't exist".toList), toolchain_store⟩ ∧
      find_vcvars sample_values qt_without_qmake_fs true toolchain_store
        = ⟨none, toolchain_store⟩ ∧
      (set_path_if_empty qt_without_qmake_fs true toolchain_store "vs".toList
        (.ok "vswhere.exe".toList)).bail = none ∧
      path_by_name (set_path_if_empty qt_without_qmake_fs true toolchain_store "vs".toList
        (.ok "vswhere.exe".toList)).map_ "vs".toList = .ok "vswhere.exe".toList ∧
      (set_path_if_empty qt_without_qmake_fs true toolchain_store "qt_install".toList
        (.ok "zz".toList)).bail = none ∧
      path_by_name (set_path_if_empty qt_without_qmake_fs true toolchain_store
        "qt_install".toList (.ok "zz".toList)).map_ "qt_install".toList = .ok "/qt".toList ∧
      (make_canonical_path qt_without_qmake_fs true toolchain_store "vs".toList "/root".toList
        "x".toList).bail = none ∧
      validate_qt sample_values (sample_fs [] []) toolchain_store
        = ⟨some (.fatal "qt path /qt doesn't exist".toList), toolchain_store⟩ ∧
      ¬ qmake_missing sample_values qt_with_qmake_fs "/qt".toList ∧
      validate_qt sample_values qt_with_qmake_fs toolchain_store
        = set_global toolchain_store "paths".toList "qt_install".toList "/qt/bin/..".toList :=
  ⟨by decide,
    (C19_simulation_mode_steps sample_values qt_without_qmake_fs trim_copy
      toolchain_store).2.2.2.2.2.2.1 ⟨by decide, by decide⟩,
    (C19_simulation_mode_steps sample_values qt_without_qmake_fs trim_copy
      toolchain_store).2.1 [] (by decide),
    ((C19_simulation_mode_steps sample_values qt_without_qmake_fs trim_copy
      toolchain_store).2.2.2.1 "vs".toList (.ok "vswhere.exe".toList) "vswhere.exe".toList
      (by decide) rfl).1,
    ((C19_simulation_mode_steps sample_values qt_without_qmake_fs trim_copy
      toolchain_store).2.2.2.1 "vs".toList (.ok "vswhere.exe".toList) "vswhere.exe".toList
      (by decide) rfl).2,
    ((C19_simulation_mode_steps sample_values qt_without_qmake_fs trim_copy
      toolchain_store).2.2.1 "qt_install".toList "/qt".toList (.ok "zz".toList)
      (by decide) (by decide)).1,
    ((C19_simulation_mode_steps sample_values qt_without_qmake_fs trim_copy
      toolchain_store).2.2.1 "qt_install".toList "/qt".toList (.ok "zz".toList)
      (by decide) (by decide)).2,
    (C19_simulation_mode_steps sample_values qt_without_qmake_fs trim_copy
      toolchain_store).2.2.2.2.1 "vs".toList "/root".toList "x".toList [] (by decide),
    (C19_simulation_mode_steps sample_values (sample_fs [] []) trim_copy
      toolchain_store).2.2.2.2.2.1 (fun _ => rfl),
    fun h => absurd (h.1 3 (by decide)) (by decide),
    (C19_simulation_mode_steps sample_values qt_with_qmake_fs trim_copy
      toolchain_store).2.2.2.2.2.2.2 (fun h => absurd (h.1 3 (by decide)) (by decide))⟩

/-! ### The architecture argument -/

/-- C21: for every generator descriptor, `get_arch` is the empty string for
`dont_care` and for an architecture whose flag is empty, and `-A ` followed by
the x86 flag for x86, by the x64 flag for x64, otherwise; the table holds a
jom generator, whose flags are empty and which has the empty string for every
architecture, and a Visual Studio generator, whose flags are `Win32` and `x64`
and which has `-A Win32` for x86, `-A x64` for x64 and the empty string for
`dont_care`; any entry the table gives for jom or for Visual Studio has these
values. -/
theorem C21_get_arch (g : gen_info) (cv : conf_values) :
    get_arch g .dont_care = [] ∧
      (g.x86 = [] → get_arch g .x86 = []) ∧
      (g.x64 = [] → get_arch g .x64 = []) ∧
      (g.x86 ≠ [] → get_arch g .x86 = "-A ".toList ++ g.x86) ∧
      (g.x64 ≠ [] → get_arch g .x64 = "-A ".toList ++ g.x64) ∧
      (∀ jom, all_generators cv .jom = some jom → ∀ a, get_arch jom a = []) ∧
      (∀ vs, all_generators cv .vs = some vs →
        get_arch vs .x86 = "-A Win32".toList ∧ get_arch vs .x64 = "-A x64".toList ∧
        get_arch vs .dont_care = []) ∧
      (∃ jom, all_generators cv .jom = some jom ∧ jom.x86 = [] ∧ jom.x64 = [] ∧
        get_arch jom .x86 = [] ∧ get_arch jom .x64 = [] ∧ get_arch jom .dont_care = []) ∧
      (∃ vs, all_generators cv .vs = some vs ∧ vs.x86 = "Win32".toList ∧
        vs.x64 = "x64".toList ∧ get_arch vs .x86 = "-A Win32".toList ∧
        get_arch vs .x64 = "-A x64".toList ∧ get_arch vs .dont_care = []) := by
  refine ⟨rfl, ?_, ?_, ?_, ?_, ?_, ?_, ⟨_, rfl, rfl, rfl, rfl, rfl, rfl⟩,
    ⟨_, rfl, rfl, rfl, rfl, rfl, rfl⟩⟩
  · intro h
    simp [get_arch, h]
  · intro h
    simp [get_arch, h]
  · intro h
    simp [get_arch, h]
  · intro h
    simp [get_arch, h]
  · intro jom hj a
    simp only [all_generators, Option.some.injEq] at hj
    subst hj
    cases a <;> rfl
  · intro vs hv
    simp only [all_generators, Option.some.injEq] at hv
    subst hv
    exact ⟨rfl, rfl, rfl⟩

/-- Witness of C21: the Visual Studio entry of the table, which has non-empty
flags, gives `-A Win32` and `-A x64`; the jom entry, which has empty flags,
gives the empty string; and the table does hold both entries. -/
theorem C21_get_arch_witness :
    all_generators sample_values .vs
        = some ⟨"vsbuild".toList, "Visual Studio 16 2019".toList, "Win32".toList,
            "x64".toList⟩ ∧
      all_generators sample_values .jom
        = some ⟨"build".toList, "NMake Makefiles JOM".toList, [], []⟩ ∧
      get_arch ⟨"vsbuild".toList, "Visual Studio 16 2019".toList, "Win32".toList,
          "x64".toList⟩ .x86 = "-A ".toList ++ "Win32".toList ∧
      get_arch ⟨"vsbuild".toList, "Visual Studio 16 2019".toList, "Win32".toList,
          "x64".toList⟩ .x64 = "-A ".toList ++ "x64".toList ∧
      get_arch ⟨"build".toList, "NMake Makefiles JOM".toList, [], []⟩ .x86 = [] ∧
      get_arch ⟨"build".toList, "NMake Makefiles JOM".toList, [], []⟩ .x64 = [] ∧
      (∀ a, get_arch ⟨"build".toList, "NMake Makefiles JOM".toList, [], []⟩ a = []) ∧
      (get_arch ⟨"vsbuild".toList, "Visual Studio 16 2019".toList, "Win32".toList,
          "x64".toList⟩ .x86 = "-A Win32".toList ∧
        get_arch ⟨"vsbuild".toList, "Visual Studio 16 2019".toList, "Win32".toList,
          "x64".toList⟩ .x64 = "-A x64".toList ∧
        get_arch ⟨"vsbuild".toList, "Visual Studio 16 2019".toList, "Win32".toList,
          "x64".toList⟩ .dont_care = []) :=
  ⟨by decide, by decide,
    (C21_get_arch ⟨"vsbuild".toList, "Visual Studio 16 2019".toList, "Win32".toList,
      "x64".toList⟩ sample_values).2.2.2.1 (by decide),
    (C21_get_arch ⟨"vsbuild".toList, "Visual Studio 16 2019".toList, "Win32".toList,
      "x64".toList⟩ sample_values).2.2.2.2.1 (by decide),
    (C21_get_arch ⟨"build".toList, "NMake Makefiles JOM".toList, [], []⟩
      sample_values).2.1 rfl,
    (C21_get_arch ⟨"build".toList, "NMake Makefiles JOM".toList, [], []⟩
      sample_values).2.2.1 rfl,
    (C21_get_arch ⟨"build".toList, "NMake Makefiles JOM".toList, [], []⟩
      sample_values).2.2.2.2.2.1 _ (by decide),
    (C21_get_arch ⟨"build".toList, "NMake Makefiles JOM".toList, [], []⟩
      sample_values).2.2.2.2.2.2.1 _ (by decide)⟩

/-! ### The schema-subset invariant from a global layer -/

theorem only_global_schema_subset (m0 : task_map) (h : only_global m0) : schema_subset m0 := by
  intro t s k v hv
  by_cases ht : t = []
  · subst ht
    exact ⟨v, hv⟩
  · have hn := h t ht
    simp [stored, hn] at hv

theorem reachable_from_schema_subset (m0 m : task_map) (h0 : schema_subset m0)
    (h : reachable_from m0 m) : schema_subset m := by
  induction h with
  | start => exact h0
  | add_global m s k v _ _ ih => exact schema_subset_assign_global m s k v ih
  | set_global m s k v _ _ ih =>
    rcases set_global_map_cases m s k v with ⟨_, _, h3⟩ | ⟨_, _, h3⟩
    · rw [h3]
      exact schema_subset_assign_global m s k v ih
    · rw [h3]
      exact ih
  | set_for_task m t s k v _ _ ih =>
    rcases set_for_task_map_cases m t s k v with ⟨_, ⟨g, hg⟩, h3⟩ | ⟨_, _, h3⟩
    · rw [h3]
      exact schema_subset_assign_task m t s k v g hg ih
    · rw [h3]
      exact ih

theorem get_global_error_iff (m : task_map) (s k : std_string) :
    (∃ e, get_global m s k = .error e) ↔ stored m [] s k = none := by
  constructor
  · rintro ⟨e, he⟩
    cases hs : stored m [] s k with
    | none => rfl
    | some v =>
      have := (get_global_eq_stored m s k v).2 hs
      rw [he] at this
      cases this
  · intro hs
    cases hg : get_global m s k with
    | error e => exact ⟨e, rfl⟩
    | ok v =>
      have := (get_global_eq_stored m s k v).1 hg
      rw [hs] at this
      cases this

theorem get_for_task_selected (m : task_map) (names : List std_string) (s k : std_string) :
    get_for_task m names s k =
      match selected_value m names s k with
      | some v => .ok v
      | none => get_global m s k := by
  unfold get_for_task selected_value
  cases hf : find_task m names with
  | none => rfl
  | some layer =>
    simp only []
    cases h2 : map_find layer s with
    | none => simp only []
    | some keys =>
      simp only []
      cases h3 : map_find keys k <;> simp only []

theorem selected_value_stored (m : task_map) (names : List std_string) (s k v : std_string)
    (h : selected_value m names s k = some v) : ∃ t, stored m t s k = some v := by
  unfold selected_value at h
  cases hf : find_task m names with
  | none => simp [hf] at h
  | some layer =>
    simp only [hf] at h
    obtain ⟨t, ht⟩ := find_task_mem m names layer hf
    refine ⟨t, ?_⟩
    unfold stored
    simp only [ht]
    exact h

/-- C22: in every store built from a store that holds at most a global layer
by calls of `add_global`, `set_global` and `set_for_task` that return, every
`(section, key)` a task layer holds is held by the global layer; and
`get_for_task` bails out exactly when the requested `(section, key)` is in
neither the global layer nor the selected task layer, which here is exactly
when it is not in the global layer. -/
theorem C22_schema_subset_invariant (m0 m : task_map) (h0 : only_global m0)
    (hr : reachable_from m0 m) :
    (∀ t s k v, stored m t s k = some v → ∃ g, stored m [] s k = some g) ∧
      (∀ names s k, (∃ e, get_for_task m names s k = .error e) ↔
        (stored m [] s k = none ∧ selected_value m names s k = none)) ∧
      (∀ names s k, (∃ e, get_for_task m names s k = .error e) ↔ stored m [] s k = none) := by
  have hinv : schema_subset m :=
    reachable_from_schema_subset m0 m (only_global_schema_subset m0 h0) hr
  have hboth : ∀ names s k, (∃ e, get_for_task m names s k = .error e) ↔
      (stored m [] s k = none ∧ selected_value m names s k = none) := by
    intro names s k
    rw [get_for_task_selected]
    cases hsel : selected_value m names s k with
    | some v =>
      simp only []
      constructor
      · rintro ⟨e, he⟩
        cases he
      · rintro ⟨_, h2⟩
        cases h2
    | none =>
      simp only []
      rw [get_global_error_iff]
      constructor
      · intro h
        exact ⟨h, by simp⟩
      · intro h
        exact h.1
  refine ⟨hinv, hboth, ?_⟩
  intro names s k
  rw [hboth]
  constructor
  · exact fun h => h.1
  · intro hg
    refine ⟨hg, ?_⟩
    cases hsel : selected_value m names s k with
    | none => rfl
    | some v =>
      obtain ⟨t, ht⟩ := selected_value_stored m names s k v hsel
      obtain ⟨g, hg'⟩ := hinv t s k v ht
      rw [hg] at hg'
      cases hg'

/-- Witness of C22: `two_task_store`, built from the store that holds only the
global `paths/foo` by one `add_global` and two `set_for_task`. -/
theorem C22_schema_subset_invariant_witness :
    (∀ t s k v, stored two_task_store t s k = some v →
        ∃ g, stored two_task_store [] s k = some g) ∧
      (∀ names s k, (∃ e, get_for_task two_task_store names s k = .error e) ↔
        (stored two_task_store [] s k = none ∧ selected_value two_task_store names s k = none)) ∧
      (∀ names s k, (∃ e, get_for_task two_task_store names s k = .error e) ↔
        stored two_task_store [] s k = none) :=
  C22_schema_subset_invariant one_key_store two_task_store
    (fun t ht => by
      simp only [one_key_store, add_global, assign, map_find, map_put, Option.getD]
      rw [if_neg (fun e => ht e.symm)])
    (reachable_from.set_for_task _ _ _ _ _
      (reachable_from.set_for_task _ _ _ _ _
        (reachable_from.add_global _ _ _ _ reachable_from.start (by decide))
        (by decide))
      (by decide))

end mob
